import Mathlib

/-!
Verification of the set-associative LRU cache simulator (`src/sim/src/main.rs`).

The Rust program is embedded shallowly:
  * `Line`, `Set`, `Cache` mirror the structs of the source;
  * Rust `usize` arithmetic is `Nat` with explicit bounds against
    `USIZE_MAX = 2 ^ 64 - 1` where the source uses checked arithmetic;
  * fallible Rust code returning `Result<_, String>` becomes
    `Except String _`; a Rust panic (an `unwrap` of `None`, an
    out-of-bounds index, a failing `try_into`) is modelled by an outer
    `Option` layer whose `none` stands for the panic.

Statistics (`hits`, `misses`, `evictions`) live inside `Cache`, exactly
as in the source.
-/

namespace Sim

/-- Models Rust `struct Line { tag: Option<usize>, is_valid: bool }`. -/
structure Line where
  tag : Option Nat
  is_valid : Bool
deriving Repr, DecidableEq

instance : Inhabited Line := ⟨⟨none, false⟩⟩

/-- Models Rust `struct Set { lines: Vec<Line>, access_order: VecDeque<usize> }`.
The head of `access_order` is the front of the `VecDeque`
(most-recently used); its last element is the back (least-recently used). -/
structure Set where
  lines : List Line
  access_order : List Nat
deriving Repr, DecidableEq

instance : Inhabited Set := ⟨⟨[], []⟩⟩

/-- Models Rust `struct Cache { sets: Vec<Set>, hits: usize, misses: usize, evictions: usize }`. -/
structure Cache where
  sets : List Set
  hits : Nat
  misses : Nat
  evictions : Nat
deriving Repr, DecidableEq

/-- The largest value of a 64-bit Rust `usize`. -/
def USIZE_MAX : Nat := 2 ^ 64 - 1

/-- Rust `usize::checked_pow(2, n)`: `none` when `2 ^ n` overflows `usize`. -/
def checked_pow2 (n : Nat) : Option Nat :=
  if 2 ^ n ≤ USIZE_MAX then some (2 ^ n) else none

/-- Rust `a.checked_mul(b)` on `usize`. -/
def checked_mul (a b : Nat) : Option Nat :=
  if a * b ≤ USIZE_MAX then some (a * b) else none

/-- Models `Cache::new(s, e, b)` (main.rs lines 27-59).  The source computes
`2^s * 2^b * e` with checked arithmetic and errors on overflow; on success it
builds `2^s` sets of `e` invalid lines each.  The outer `Option` models the
panic of `s.try_into::<u32>().unwrap()` when `s` (or `b`) exceeds `u32::MAX`. -/
def Cache.new (s e b : Nat) : Option (Except String Cache) :=
  if 2 ^ 32 ≤ s ∨ 2 ^ 32 ≤ b then none
  else
    match (checked_pow2 s).bind fun sets =>
          (checked_pow2 b).bind fun blocks =>
          (checked_mul sets blocks).bind fun sets_blocks =>
          checked_mul sets_blocks e with
    | some _ =>
        some (.ok
          { sets := List.replicate (2 ^ s)
              { lines := List.replicate e { tag := none, is_valid := false },
                access_order := [] },
            hits := 0, misses := 0, evictions := 0 })
    | none => some (.error "cache size exceeds available space (overflow)")

/-- `self.sets[set_index]` read access (the callers below only use it after
the bound check of main.rs line 65, so the default is never observable). -/
def getSet (c : Cache) (set_index : Nat) : Set :=
  c.sets.getD set_index default

/-- Write back a modified set at `set_index`. -/
def modifySet (c : Cache) (set_index : Nat) (f : Set → Set) : Cache :=
  { c with sets := c.sets.set set_index (f (getSet c set_index)) }

/-- Models `Cache::update_access_order` (main.rs lines 120-127): remove
`accessed_index` from the set's recency deque if present (Rust
`position` + `remove`, i.e. erase the first occurrence), then
`push_front` it. -/
def update_access_order (c : Cache) (set_index accessed_index : Nat) : Cache :=
  modifySet c set_index fun st =>
    { st with access_order := accessed_index :: st.access_order.erase accessed_index }

/-- Models `Cache::record_hit` (main.rs lines 130-132). -/
def record_hit (c : Cache) : Cache := { c with hits := c.hits + 1 }

/-- Models `Cache::record_miss` (main.rs lines 135-137). -/
def record_miss (c : Cache) : Cache := { c with misses := c.misses + 1 }

/-- Models `Cache::record_eviction` (main.rs lines 140-142). -/
def record_eviction (c : Cache) : Cache := { c with evictions := c.evictions + 1 }

/-- Outcome of the scan loop of `simulate_memory_access`
(main.rs lines 71-92). -/
inductive ScanResult where
  /-- a valid line with the requested tag was found at this index -/
  | hit (i : Nat)
  /-- the first invalid line sits at this index and no earlier line matched -/
  | fill (i : Nat)
  /-- every line is valid and none matched -/
  | full
  /-- a valid line with `tag = None` was reached: `tag.unwrap()` panics -/
  | panicked
deriving Repr, DecidableEq

/-- Shift the line index of a scan outcome by one (used to express the
source's `for index in 0..lines.len()` loop by recursion on the list). -/
def ScanResult.bump : ScanResult → ScanResult
  | .hit i => .hit (i + 1)
  | .fill i => .fill (i + 1)
  | .full => .full
  | .panicked => .panicked

/-- The scan loop of main.rs lines 71-92, as a pure function of the line
list: walk the lines in index order; at a valid line compare
`tag.unwrap()` with the requested tag and stop on a match; at the first
invalid line stop (the source fills it and breaks); report `full` when the
loop runs off the end. -/
def scanLines (tag : Nat) : List Line → ScanResult
  | [] => .full
  | l :: rest =>
    if l.is_valid = true then
      match l.tag with
      | some t2 => if t2 = tag then .hit 0 else (scanLines tag rest).bump
      | none => .panicked
    else .fill 0

/-- The line mutation of main.rs lines 86-87: store the tag in line
`line_index` and mark it valid. -/
def fillLine (c : Cache) (set_index line_index tag : Nat) : Cache :=
  modifySet c set_index fun st =>
    { st with lines := st.lines.set line_index { tag := some tag, is_valid := true } }

/-- `self.sets[set_index].access_order.pop_back()`'s mutation (main.rs
line 96): drop the back (least-recently-used) element. -/
def popBack (c : Cache) (set_index : Nat) : Cache :=
  modifySet c set_index fun st => { st with access_order := st.access_order.dropLast }

/-- The eviction mutation of main.rs line 97: overwrite the victim line's
tag; its `is_valid` flag is left untouched. -/
def overwriteTag (c : Cache) (set_index line_index tag : Nat) : Cache :=
  modifySet c set_index fun st =>
    let old := st.lines.getD line_index default
    { st with lines := st.lines.set line_index { old with tag := some tag } }

/-- The `'L' | 'S'` arm of `Cache::simulate_memory_access`
(main.rs lines 64-106).  The two operations share this code verbatim in
the source.  `none` models a panic: either `tag.unwrap()` on a valid line
holding `None` (line 78), or indexing `lines[evict_index]` out of bounds
(line 97). -/
def accessLoadStore (c : Cache) (set_index tag : Nat) : Option (Except String Cache) :=
  if c.sets.length ≤ set_index then some (.error "failed to access cache set")
  else
    match scanLines tag (getSet c set_index).lines with
    | .hit i =>
        some (.ok (update_access_order (record_hit c) set_index i))
    | .fill i =>
        some (.ok (update_access_order (record_miss (fillLine c set_index i tag)) set_index i))
    | .full =>
        match (getSet c set_index).access_order.getLast? with
        | some evict_index =>
            if (getSet c set_index).lines.length ≤ evict_index then none
            else
              some (.ok (update_access_order
                (record_eviction (record_miss
                  (overwriteTag (popBack c set_index) set_index evict_index tag)))
                set_index evict_index))
        | none => some (.error "eviction failed")
    | .panicked => none

/-- Models `Cache::simulate_memory_access` (main.rs lines 62-117).  The
source's `'M'` arm recurses with `'L'` then `'S'`, both of which execute
`accessLoadStore`; the `?` operator propagates the first error. -/
def simulate_memory_access (c : Cache) (operation : Char) (set_index tag : Nat) :
    Option (Except String Cache) :=
  if operation = 'L' ∨ operation = 'S' then accessLoadStore c set_index tag
  else if operation = 'M' then
    match accessLoadStore c set_index tag with
    | some (.ok c1) => accessLoadStore c1 set_index tag
    | r => r
  else some (.error ("unknown operation: ".push operation))

/-- The trace loop of `main` (main.rs lines 267-288): decoded accesses are
simulated in order and the run aborts on the first error (or panic). -/
def runTrace (c : Cache) : List (Char × Nat × Nat) → Option (Except String Cache)
  | [] => some (.ok c)
  | (op, set_index, tag) :: rest =>
    match simulate_memory_access c op set_index tag with
    | some (.ok c') => runTrace c' rest
    | r => r

/-- `usize::from_str_radix(slice, 2)` applied to the slice `[lo, hi)` of the
64-character binary rendering of `addr` (main.rs lines 232-236).  The slice
`[lo, hi)` of the string holds bits `[64 - hi, 64 - lo)` of the address;
parsing an empty slice is an `Err` in Rust. -/
def parseBinSlice (addr lo hi : Nat) : Except String Nat :=
  if lo = hi then .error "failed to parse (empty slice)"
  else .ok (addr / 2 ^ (64 - hi) % 2 ^ (hi - lo))

/-- The address-decomposition core of `parse_memory_access`
(main.rs lines 231-237): render the address as a 64-bit binary string, take
the leading `64 - s - b` characters as the tag and the next `s` characters
as the set index.  The outer `Option` models the panics of the `usize`
subtractions `64 - b` and `(64 - b) - s` when they underflow. -/
def decodeAddress (addr s b : Nat) : Option (Except String (Nat × Nat)) :=
  if 64 < b then none
  else if 64 - b < s then none
  else
    let set_index_start := 64 - b
    let tag_start := set_index_start - s
    some (do
      let tag ← parseBinSlice addr 0 tag_start
      let set_index ← parseBinSlice addr tag_start set_index_start
      return (tag, set_index))

/-! ### Specification-side definitions

Predicates used to state the claims: the per-set well-formedness
invariant, reachability from a freshly constructed cache, and the
bookkeeping weight of a decoded access. -/

/-- Well-formedness of one cache set: the recency deque has no duplicates
and holds exactly the indices of the currently valid lines; valid lines
carry a tag; the valid lines form a prefix of the line array; and two
distinct valid lines never share a tag.  (Out-of-range `getD` reads
return the invalid `default` line, so the bounds are implicit.) -/
structure WFSet (st : Set) : Prop where
  nodup : st.access_order.Nodup
  mem_iff : ∀ i, i ∈ st.access_order ↔ (st.lines.getD i default).is_valid = true
  tag_isSome : ∀ i, (st.lines.getD i default).is_valid = true →
    (st.lines.getD i default).tag ≠ none
  validPrefix : ∀ i j, i ≤ j → (st.lines.getD j default).is_valid = true →
    (st.lines.getD i default).is_valid = true
  tagsDistinct : ∀ i j, i < j → (st.lines.getD i default).is_valid = true →
    (st.lines.getD j default).is_valid = true →
    (st.lines.getD i default).tag ≠ (st.lines.getD j default).tag

/-- Well-formedness of the whole cache (vacuous at out-of-range indices,
where `getSet` returns the empty default set). -/
def WF (c : Cache) : Prop := ∀ si, WFSet (getSet c si)

/-- Cache states reachable by the program: a freshly constructed cache,
followed by any number of successfully simulated accesses. -/
inductive Reachable : Cache → Prop where
  | init (s e b : Nat) (c : Cache) : Cache.new s e b = some (.ok c) → Reachable c
  | step (c : Cache) (op : Char) (set_index tag : Nat) (c' : Cache) :
      Reachable c → simulate_memory_access c op set_index tag = some (.ok c') →
      Reachable c'

/-- How many hit/miss outcomes one decoded access records: a Modify is
simulated as a Load followed by a Store, so it records two. -/
def opWeight (op : Char) : Nat := if op = 'M' then 2 else 1

/-- Total number of outcomes a decoded-access trace records. -/
def traceWeight (ops : List (Char × Nat × Nat)) : Nat :=
  (ops.map fun a => opWeight a.1).sum

/-- A valid line holding the given tag (shorthand for stating the LRU claims). -/
def filledLine (t : Nat) : Line := { tag := some t, is_valid := true }

/-- The cache that `Cache.new s e b` builds on success: `2 ^ s` sets of `e`
invalid lines, empty recency deques, zeroed statistics. -/
def freshCache (s e : Nat) : Cache :=
  { sets := List.replicate (2 ^ s)
      { lines := List.replicate e { tag := none, is_valid := false },
        access_order := [] },
    hits := 0, misses := 0, evictions := 0 }

/-! ### List helper lemmas -/

lemma getD_set_self {α : Type} (l : List α) (i : Nat) (a d : α) (h : i < l.length) :
    (l.set i a).getD i d = a := by
  simp [List.getD_eq_getElem?_getD, List.getElem?_set_self', List.getElem?_eq_getElem h]

lemma getD_set_ne {α : Type} (l : List α) {i j : Nat} (a : α) (d : α) (h : i ≠ j) :
    (l.set i a).getD j d = l.getD j d := by
  simp [List.getD_eq_getElem?_getD, List.getElem?_set_ne h]

lemma getD_replicate {α : Type} (n i : Nat) (a d : α) :
    (List.replicate n a).getD i d = if i < n then a else d := by
  simp only [List.getD_eq_getElem?_getD, List.getElem?_replicate]
  split <;> rfl

lemma getD_cons_zero {α : Type} (a : α) (l : List α) (d : α) : (a :: l).getD 0 d = a := rfl

lemma getD_cons_succ {α : Type} (a : α) (l : List α) (j : Nat) (d : α) :
    (a :: l).getD (j + 1) d = l.getD j d := rfl

/-! ### Characterisation of the scan loop -/

lemma scan_hit_elim {l : List Line} {t i : Nat} (h : scanLines t l = .hit i) :
    i < l.length ∧ (l.getD i default).is_valid = true ∧ (l.getD i default).tag = some t ∧
    ∀ j, j < i → (l.getD j default).is_valid = true ∧ (l.getD j default).tag ≠ some t ∧
      (l.getD j default).tag ≠ none := by
  induction l generalizing i with
  | nil => simp [scanLines] at h
  | cons a rest ih =>
    rw [scanLines] at h
    by_cases hv : a.is_valid = true
    · rw [if_pos hv] at h
      match hta : a.tag with
      | none => simp only [hta] at h; cases h
      | some t2 =>
        simp only [hta] at h
        by_cases ht2 : t2 = t
        · rw [if_pos ht2] at h
          cases h
          refine ⟨Nat.succ_pos _, hv, by rw [getD_cons_zero, hta, ht2], ?_⟩
          intro j hj
          omega
        · rw [if_neg ht2] at h
          cases hr : scanLines t rest <;> rw [hr] at h <;> simp [ScanResult.bump] at h
          rename_i k
          obtain ⟨hk, hvk, htk, hbk⟩ := ih hr
          subst h
          refine ⟨by simpa using hk, by simpa using hvk, by simpa using htk, ?_⟩
          intro j hj
          cases j with
          | zero =>
            refine ⟨hv, ?_, ?_⟩ <;> rw [getD_cons_zero, hta]
            · exact fun he => ht2 (by injection he)
            · simp
          | succ j' =>
            rw [getD_cons_succ]
            exact hbk j' (by omega)
    · rw [if_neg hv] at h; cases h

lemma scan_fill_elim {l : List Line} {t i : Nat} (h : scanLines t l = .fill i) :
    i < l.length ∧ (l.getD i default).is_valid = false ∧
    ∀ j, j < i → (l.getD j default).is_valid = true ∧ (l.getD j default).tag ≠ some t ∧
      (l.getD j default).tag ≠ none := by
  induction l generalizing i with
  | nil => simp [scanLines] at h
  | cons a rest ih =>
    rw [scanLines] at h
    by_cases hv : a.is_valid = true
    · rw [if_pos hv] at h
      match hta : a.tag with
      | none => simp only [hta] at h; cases h
      | some t2 =>
        simp only [hta] at h
        by_cases ht2 : t2 = t
        · rw [if_pos ht2] at h; cases h
        · rw [if_neg ht2] at h
          cases hr : scanLines t rest <;> rw [hr] at h <;> simp [ScanResult.bump] at h
          rename_i k
          obtain ⟨hk, hvk, hbk⟩ := ih hr
          subst h
          refine ⟨by simpa using hk, by simpa using hvk, ?_⟩
          intro j hj
          cases j with
          | zero =>
            refine ⟨hv, ?_, ?_⟩ <;> rw [getD_cons_zero, hta]
            · exact fun he => ht2 (by injection he)
            · simp
          | succ j' =>
            rw [getD_cons_succ]
            exact hbk j' (by omega)
    · rw [if_neg hv] at h
      cases h
      exact ⟨Nat.succ_pos _, by rw [getD_cons_zero]; simpa using hv, fun j hj => by omega⟩

lemma scan_full_elim {l : List Line} {t : Nat} (h : scanLines t l = .full) :
    ∀ j, j < l.length → (l.getD j default).is_valid = true ∧
      (l.getD j default).tag ≠ some t ∧ (l.getD j default).tag ≠ none := by
  induction l with
  | nil => intro j hj; simp at hj
  | cons a rest ih =>
    rw [scanLines] at h
    by_cases hv : a.is_valid = true
    · rw [if_pos hv] at h
      match hta : a.tag with
      | none => simp only [hta] at h; cases h
      | some t2 =>
        simp only [hta] at h
        by_cases ht2 : t2 = t
        · rw [if_pos ht2] at h; cases h
        · rw [if_neg ht2] at h
          cases hr : scanLines t rest <;> rw [hr] at h <;> simp [ScanResult.bump] at h
          intro j hj
          cases j with
          | zero =>
            refine ⟨hv, ?_, ?_⟩ <;> rw [getD_cons_zero, hta]
            · exact fun he => ht2 (by injection he)
            · simp
          | succ j' =>
            rw [getD_cons_succ]
            exact ih hr j' (by simpa using hj)
    · rw [if_neg hv] at h; cases h

lemma scan_panicked_elim {l : List Line} {t : Nat} (h : scanLines t l = .panicked) :
    ∃ j, j < l.length ∧ (l.getD j default).is_valid = true ∧
      (l.getD j default).tag = none := by
  induction l with
  | nil => simp [scanLines] at h
  | cons a rest ih =>
    rw [scanLines] at h
    by_cases hv : a.is_valid = true
    · rw [if_pos hv] at h
      match hta : a.tag with
      | none =>
        exact ⟨0, Nat.succ_pos _, by rw [getD_cons_zero]; exact ⟨hv, hta⟩⟩
      | some t2 =>
        simp only [hta] at h
        by_cases ht2 : t2 = t
        · rw [if_pos ht2] at h; cases h
        · rw [if_neg ht2] at h
          cases hr : scanLines t rest <;> rw [hr] at h <;> simp [ScanResult.bump] at h
          obtain ⟨j, hj, hvj, htj⟩ := ih hr
          exact ⟨j + 1, by simpa using hj, by rw [getD_cons_succ]; exact ⟨hvj, htj⟩⟩
    · rw [if_neg hv] at h; cases h

lemma scan_eq_hit_of {l : List Line} {t i : Nat}
    (hi : i < l.length) (hv : (l.getD i default).is_valid = true)
    (ht : (l.getD i default).tag = some t)
    (hbelow : ∀ j, j < i → (l.getD j default).is_valid = true ∧
      (l.getD j default).tag ≠ some t ∧ (l.getD j default).tag ≠ none) :
    scanLines t l = .hit i := by
  induction l generalizing i with
  | nil => simp at hi
  | cons a rest ih =>
    cases i with
    | zero =>
      rw [getD_cons_zero] at hv ht
      rw [scanLines, if_pos hv]; simp [ht]
    | succ i' =>
      obtain ⟨hv0, hne0, hnn0⟩ := hbelow 0 (Nat.succ_pos _)
      rw [getD_cons_zero] at hv0 hne0 hnn0
      match hta : a.tag with
      | none => exact absurd hta hnn0
      | some ta =>
        have hta' : ta ≠ t := fun he => hne0 (by rw [hta, he])
        rw [scanLines, if_pos hv0]; simp only [hta]; rw [if_neg hta']
        rw [ih (by simpa using hi) (by simpa using hv) (by simpa using ht)
          (fun j hj => by
            have := hbelow (j + 1) (by omega)
            rwa [getD_cons_succ] at this)]
        rfl

lemma scan_eq_fill_of {l : List Line} {t i : Nat}
    (hi : i < l.length) (hv : (l.getD i default).is_valid = false)
    (hbelow : ∀ j, j < i → (l.getD j default).is_valid = true ∧
      (l.getD j default).tag ≠ some t ∧ (l.getD j default).tag ≠ none) :
    scanLines t l = .fill i := by
  induction l generalizing i with
  | nil => simp at hi
  | cons a rest ih =>
    cases i with
    | zero =>
      rw [getD_cons_zero] at hv
      rw [scanLines, if_neg (by simp [hv])]
    | succ i' =>
      obtain ⟨hv0, hne0, hnn0⟩ := hbelow 0 (Nat.succ_pos _)
      rw [getD_cons_zero] at hv0 hne0 hnn0
      match hta : a.tag with
      | none => exact absurd hta hnn0
      | some ta =>
        have hta' : ta ≠ t := fun he => hne0 (by rw [hta, he])
        rw [scanLines, if_pos hv0]; simp only [hta]; rw [if_neg hta']
        rw [ih (by simpa using hi) (by simpa using hv)
          (fun j hj => by
            have := hbelow (j + 1) (by omega)
            rwa [getD_cons_succ] at this)]
        rfl

lemma scan_eq_full_of {l : List Line} {t : Nat}
    (hall : ∀ j, j < l.length → (l.getD j default).is_valid = true ∧
      (l.getD j default).tag ≠ some t ∧ (l.getD j default).tag ≠ none) :
    scanLines t l = .full := by
  induction l with
  | nil => rfl
  | cons a rest ih =>
    obtain ⟨hv0, hne0, hnn0⟩ := hall 0 (Nat.succ_pos _)
    rw [getD_cons_zero] at hv0 hne0 hnn0
    match hta : a.tag with
    | none => exact absurd hta hnn0
    | some ta =>
      have hta' : ta ≠ t := fun he => hne0 (by rw [hta, he])
      rw [scanLines, if_pos hv0]; simp only [hta]; rw [if_neg hta']
      rw [ih (fun j hj => by
        have := hall (j + 1) (by simpa using hj)
        rwa [getD_cons_succ] at this)]
      rfl

/-! ### Closed forms of the three access branches -/

lemma hit_branch_spec (c : Cache) (si i : Nat) :
    update_access_order (record_hit c) si i =
    { c with hits := c.hits + 1,
             sets := c.sets.set si
               { lines := (getSet c si).lines,
                 access_order := i :: (getSet c si).access_order.erase i } } := rfl

lemma modifySet_comp (c : Cache) (si : Nat) (f g : Set → Set) (h : si < c.sets.length) :
    modifySet (modifySet c si f) si g = modifySet c si (fun st => g (f st)) := by
  unfold modifySet getSet
  rw [getD_set_self c.sets si _ default h, List.set_set]

lemma modifySet_record_miss (c : Cache) (si : Nat) (f : Set → Set) :
    modifySet (record_miss c) si f = record_miss (modifySet c si f) := rfl

lemma modifySet_record_eviction (c : Cache) (si : Nat) (f : Set → Set) :
    modifySet (record_eviction c) si f = record_eviction (modifySet c si f) := rfl

lemma fill_branch_spec (c : Cache) (si i t : Nat) (h : si < c.sets.length) :
    update_access_order (record_miss (fillLine c si i t)) si i =
    { c with misses := c.misses + 1,
             sets := c.sets.set si
               { lines := (getSet c si).lines.set i { tag := some t, is_valid := true },
                 access_order := i :: (getSet c si).access_order.erase i } } := by
  unfold update_access_order fillLine
  rw [modifySet_record_miss, modifySet_comp c si _ _ h]
  rfl

lemma evict_branch_spec (c : Cache) (si e t : Nat) (h : si < c.sets.length) :
    update_access_order (record_eviction (record_miss
      (overwriteTag (popBack c si) si e t))) si e =
    { c with misses := c.misses + 1, evictions := c.evictions + 1,
             sets := c.sets.set si
               { lines := (getSet c si).lines.set e
                   { (getSet c si).lines.getD e default with tag := some t },
                 access_order := e :: ((getSet c si).access_order.dropLast).erase e } } := by
  unfold update_access_order overwriteTag popBack
  rw [modifySet_record_eviction, modifySet_record_miss, modifySet_comp c si _ _ h,
    modifySet_comp c si _ _ h]
  rfl

/-! ### Case analysis of a successful Load/Store access -/

lemma access_ok_elim {c : Cache} {si t : Nat} {c' : Cache}
    (h : accessLoadStore c si t = some (.ok c')) :
    si < c.sets.length ∧
    ((∃ i, scanLines t (getSet c si).lines = .hit i ∧
        c' = update_access_order (record_hit c) si i) ∨
     (∃ i, scanLines t (getSet c si).lines = .fill i ∧
        c' = update_access_order (record_miss (fillLine c si i t)) si i) ∨
     (∃ e, scanLines t (getSet c si).lines = .full ∧
        (getSet c si).access_order.getLast? = some e ∧
        e < (getSet c si).lines.length ∧
        c' = update_access_order (record_eviction (record_miss
          (overwriteTag (popBack c si) si e t))) si e)) := by
  unfold accessLoadStore at h
  by_cases hsi : c.sets.length ≤ si
  · rw [if_pos hsi] at h; simp at h
  · rw [if_neg hsi] at h
    refine ⟨by omega, ?_⟩
    cases hscan : scanLines t (getSet c si).lines with
    | hit i =>
      simp only [hscan, Option.some.injEq, Except.ok.injEq] at h
      left; exact ⟨i, rfl, h.symm⟩
    | fill i =>
      simp only [hscan, Option.some.injEq, Except.ok.injEq] at h
      right; left
      exact ⟨i, rfl, h.symm⟩
    | full =>
      simp only [hscan] at h
      right; right
      cases hlast : (getSet c si).access_order.getLast? with
      | none => simp only [hlast] at h; simp at h
      | some e =>
        simp only [hlast] at h
        by_cases hb : (getSet c si).lines.length ≤ e
        · rw [if_pos hb] at h; simp at h
        · rw [if_neg hb] at h
          simp only [Option.some.injEq, Except.ok.injEq] at h
          exact ⟨e, rfl, rfl, by omega, h.symm⟩
    | panicked => simp only [hscan] at h; simp at h

lemma access_ok_hit_intro {c : Cache} {si t i : Nat}
    (hsi : si < c.sets.length) (hscan : scanLines t (getSet c si).lines = .hit i) :
    accessLoadStore c si t = some (.ok (update_access_order (record_hit c) si i)) := by
  unfold accessLoadStore
  rw [if_neg (by omega)]
  simp only [hscan]

lemma access_ok_fill_intro {c : Cache} {si t i : Nat}
    (hsi : si < c.sets.length) (hscan : scanLines t (getSet c si).lines = .fill i) :
    accessLoadStore c si t =
      some (.ok (update_access_order (record_miss (fillLine c si i t)) si i)) := by
  unfold accessLoadStore
  rw [if_neg (by omega)]
  simp only [hscan]

lemma access_ok_evict_intro {c : Cache} {si t e : Nat}
    (hsi : si < c.sets.length) (hscan : scanLines t (getSet c si).lines = .full)
    (hlast : (getSet c si).access_order.getLast? = some e)
    (hb : e < (getSet c si).lines.length) :
    accessLoadStore c si t =
      some (.ok (update_access_order (record_eviction (record_miss
        (overwriteTag (popBack c si) si e t))) si e)) := by
  unfold accessLoadStore
  rw [if_neg (by omega)]
  simp only [hscan, hlast]
  rw [if_neg (by omega)]

/-! ### Reading a set of the post-access cache literals -/

lemma getSet_cache_set (c : Cache) (si : Nat) (X : Set) (hs hm he : Nat)
    (hsi : si < c.sets.length) :
    getSet { sets := c.sets.set si X, hits := hs, misses := hm, evictions := he } si = X := by
  unfold getSet
  exact getD_set_self _ _ _ _ (by simpa using hsi)

lemma getSet_cache_set_ne (c : Cache) {si sj : Nat} (X : Set) (hs hm he : Nat)
    (h : si ≠ sj) :
    getSet { sets := c.sets.set si X, hits := hs, misses := hm, evictions := he } sj =
      getSet c sj := by
  unfold getSet
  exact getD_set_ne _ _ _ h

/-! ### Statistics effects of one Load/Store access -/

lemma access_stats {c : Cache} {si t : Nat} {c' : Cache}
    (h : accessLoadStore c si t = some (.ok c')) :
    c'.sets.length = c.sets.length ∧
    ((c'.hits = c.hits + 1 ∧ c'.misses = c.misses ∧ c'.evictions = c.evictions) ∨
     (c'.hits = c.hits ∧ c'.misses = c.misses + 1 ∧
       (c'.evictions = c.evictions ∨ c'.evictions = c.evictions + 1))) := by
  obtain ⟨hsi, hcase⟩ := access_ok_elim h
  rcases hcase with ⟨i, hscan, rfl⟩ | ⟨i, hscan, rfl⟩ | ⟨e, hscan, hlast, hb, rfl⟩
  · rw [hit_branch_spec]
    exact ⟨by simp, Or.inl ⟨rfl, rfl, rfl⟩⟩
  · rw [fill_branch_spec c si i t hsi]
    exact ⟨by simp, Or.inr ⟨rfl, rfl, Or.inl rfl⟩⟩
  · rw [evict_branch_spec c si e t hsi]
    exact ⟨by simp, Or.inr ⟨rfl, rfl, Or.inr rfl⟩⟩

/-! ### After a successful access, the requested tag is resident -/

lemma access_ok_hit_next {c : Cache} {si t : Nat} {c1 : Cache}
    (h : accessLoadStore c si t = some (.ok c1)) :
    ∃ i, accessLoadStore c1 si t =
      some (.ok (update_access_order (record_hit c1) si i)) := by
  obtain ⟨hsi, hcase⟩ := access_ok_elim h
  rcases hcase with ⟨i, hscan, rfl⟩ | ⟨i, hscan, rfl⟩ | ⟨e, hscan, hlast, hb, rfl⟩
  · rw [hit_branch_spec]
    refine ⟨i, access_ok_hit_intro (by simpa using hsi) ?_⟩
    rw [getSet_cache_set c si _ _ _ _ hsi]
    exact hscan
  · obtain ⟨hilen, hinv, hbelow⟩ := scan_fill_elim hscan
    rw [fill_branch_spec c si i t hsi]
    refine ⟨i, access_ok_hit_intro (by simpa using hsi) ?_⟩
    rw [getSet_cache_set c si _ _ _ _ hsi]
    apply scan_eq_hit_of
    · simpa using hilen
    · rw [getD_set_self _ _ _ _ hilen]
    · rw [getD_set_self _ _ _ _ hilen]
    · intro j hj
      rw [getD_set_ne _ _ _ (by omega)]
      exact hbelow j hj
  · have hall := scan_full_elim hscan
    obtain ⟨hve, hne, hnn⟩ := hall e hb
    rw [evict_branch_spec c si e t hsi]
    refine ⟨e, access_ok_hit_intro (by simpa using hsi) ?_⟩
    rw [getSet_cache_set c si _ _ _ _ hsi]
    apply scan_eq_hit_of
    · simpa using hb
    · rw [getD_set_self _ _ _ _ hb]
      exact hve
    · rw [getD_set_self _ _ _ _ hb]
    · intro j hj
      rw [getD_set_ne _ _ _ (by omega)]
      exact hall j (by omega)

/-! ### Operation dispatch of `simulate_memory_access` -/

lemma simulate_eq_access {c : Cache} {op : Char} {si t : Nat}
    (hop : op = 'L' ∨ op = 'S') :
    simulate_memory_access c op si t = accessLoadStore c si t := by
  unfold simulate_memory_access
  rcases hop with rfl | rfl <;> simp

lemma simulate_ok_elim {c : Cache} {op : Char} {si t : Nat} {c' : Cache}
    (h : simulate_memory_access c op si t = some (.ok c')) :
    (accessLoadStore c si t = some (.ok c') ∧ op ≠ 'M') ∨
    (op = 'M' ∧ ∃ c1, accessLoadStore c si t = some (.ok c1) ∧
      accessLoadStore c1 si t = some (.ok c')) := by
  unfold simulate_memory_access at h
  by_cases h1 : op = 'L' ∨ op = 'S'
  · rw [if_pos h1] at h
    left
    exact ⟨h, by rcases h1 with rfl | rfl <;> decide⟩
  · rw [if_neg h1] at h
    by_cases h2 : op = 'M'
    · rw [if_pos h2] at h
      right
      refine ⟨h2, ?_⟩
      cases hr : accessLoadStore c si t with
      | none => rw [hr] at h; simp at h
      | some r0 =>
        cases r0 with
        | ok c1 =>
          simp only [hr] at h
          exact ⟨c1, rfl, h⟩
        | error msg => simp only [hr] at h; simp at h
    · rw [if_neg h2] at h; simp at h

lemma opWeight_of_ne (op : Char) (h : op ≠ 'M') : opWeight op = 1 := by
  simp [opWeight, h]

lemma simulate_stats {c : Cache} {op : Char} {si t : Nat} {c' : Cache}
    (h : simulate_memory_access c op si t = some (.ok c')) :
    c'.sets.length = c.sets.length ∧
    c'.hits + c'.misses = c.hits + c.misses + opWeight op ∧
    c.hits ≤ c'.hits ∧ c.misses ≤ c'.misses ∧ c.evictions ≤ c'.evictions ∧
    c'.evictions + c.misses ≤ c.evictions + c'.misses := by
  rcases simulate_ok_elim h with ⟨h1, hne⟩ | ⟨hM, c1, h1, h2⟩
  · obtain ⟨hlen, hd⟩ := access_stats h1
    rw [opWeight_of_ne op hne]
    rcases hd with ⟨e1, e2, e3⟩ | ⟨e1, e2, e3 | e3⟩ <;> exact ⟨hlen, by omega, by omega, by omega, by omega, by omega⟩
  · obtain ⟨hlen1, hd1⟩ := access_stats h1
    obtain ⟨hlen2, hd2⟩ := access_stats h2
    subst hM
    have hw : opWeight 'M' = 2 := rfl
    rw [hw]
    refine ⟨by omega, ?_, ?_, ?_, ?_, ?_⟩ <;>
      rcases hd1 with ⟨e1, e2, e3⟩ | ⟨e1, e2, e3 | e3⟩ <;>
      rcases hd2 with ⟨f1, f2, f3⟩ | ⟨f1, f2, f3 | f3⟩ <;> omega

lemma modify_stats {c : Cache} {si t : Nat} {c' : Cache}
    (h : simulate_memory_access c 'M' si t = some (.ok c')) :
    c.hits + 1 ≤ c'.hits ∧ c'.misses ≤ c.misses + 1 ∧
    c'.evictions ≤ c.evictions + 1 ∧
    c'.hits + c'.misses = c.hits + c.misses + 2 := by
  rcases simulate_ok_elim h with ⟨_, hne⟩ | ⟨_, c1, h1, h2⟩
  · exact absurd rfl hne
  · obtain ⟨i, hhit⟩ := access_ok_hit_next h1
    rw [hhit] at h2
    injection h2 with h2'
    injection h2' with h2''
    obtain ⟨hlen1, hd1⟩ := access_stats h1
    have hstats2 : c'.hits = c1.hits + 1 ∧ c'.misses = c1.misses ∧
        c'.evictions = c1.evictions := by
      rw [← h2'', hit_branch_spec]
      exact ⟨rfl, rfl, rfl⟩
    obtain ⟨g1, g2, g3⟩ := hstats2
    rcases hd1 with ⟨e1, e2, e3⟩ | ⟨e1, e2, e3 | e3⟩ <;> omega

/-! ### Statistics over a whole trace -/

lemma traceWeight_cons (op : Char) (si t : Nat) (l : List (Char × Nat × Nat)) :
    traceWeight ((op, si, t) :: l) = opWeight op + traceWeight l := by
  simp [traceWeight]

lemma runTrace_stats {ops : List (Char × Nat × Nat)} {c c' : Cache}
    (h : runTrace c ops = some (.ok c')) :
    c'.sets.length = c.sets.length ∧
    c'.hits + c'.misses = c.hits + c.misses + traceWeight ops ∧
    c.hits ≤ c'.hits ∧ c.misses ≤ c'.misses ∧ c.evictions ≤ c'.evictions ∧
    c'.evictions + c.misses ≤ c.evictions + c'.misses := by
  induction ops generalizing c with
  | nil =>
    simp only [runTrace, Option.some.injEq, Except.ok.injEq] at h
    subst h
    exact ⟨rfl, by simp [traceWeight], le_refl _, le_refl _, le_refl _, by omega⟩
  | cons a rest ih =>
    obtain ⟨op, si, t⟩ := a
    unfold runTrace at h
    cases hr : simulate_memory_access c op si t with
    | none => rw [hr] at h; simp at h
    | some r0 =>
      cases r0 with
      | ok c1 =>
        simp only [hr] at h
        obtain ⟨l1, w1, m1, m2, m3, m4⟩ := simulate_stats hr
        obtain ⟨l2, w2, n1, n2, n3, n4⟩ := ih h
        rw [traceWeight_cons]
        exact ⟨by omega, by omega, by omega, by omega, by omega, by omega⟩
      | error msg => simp only [hr] at h; simp at h

/-! ### The well-formedness invariant is preserved -/

lemma getLast?_decomp {l : List Nat} {e : Nat} (h : l.getLast? = some e) :
    l = l.dropLast ++ [e] := by
  cases l with
  | nil => simp at h
  | cons a l' =>
    have hne : (a :: l') ≠ [] := by simp
    rw [List.getLast?_eq_getLast _ hne] at h
    injection h with h'
    rw [← h']
    exact (List.dropLast_append_getLast hne).symm

lemma WFSet_hit (st : Set) (h : WFSet st) {t i : Nat}
    (hs : scanLines t st.lines = .hit i) :
    WFSet ⟨st.lines, i :: st.access_order.erase i⟩ := by
  obtain ⟨hi, hv, ht, hbelow⟩ := scan_hit_elim hs
  constructor
  · refine List.Nodup.cons ?_ (h.nodup.erase i)
    intro hmem
    exact absurd ((h.nodup.mem_erase_iff).mp hmem).1 (by simp)
  · intro j
    simp only [List.mem_cons]
    constructor
    · rintro (rfl | hj)
      · exact hv
      · exact (h.mem_iff j).mp ((h.nodup.mem_erase_iff).mp hj).2
    · intro hvj
      by_cases hji : j = i
      · exact Or.inl hji
      · exact Or.inr ((h.nodup.mem_erase_iff).mpr ⟨hji, (h.mem_iff j).mpr hvj⟩)
  · exact h.tag_isSome
  · exact h.validPrefix
  · exact h.tagsDistinct

lemma WFSet_fill (st : Set) (h : WFSet st) {t i : Nat}
    (hs : scanLines t st.lines = .fill i) :
    WFSet ⟨st.lines.set i { tag := some t, is_valid := true },
           i :: st.access_order.erase i⟩ := by
  obtain ⟨hi, hinv, hbelow⟩ := scan_fill_elim hs
  have hnotmem : i ∉ st.access_order := by
    intro hm
    have hvi := (h.mem_iff i).mp hm
    rw [hinv] at hvi
    cases hvi
  have herase : st.access_order.erase i = st.access_order :=
    List.erase_of_not_mem hnotmem
  have hvalid_lt : ∀ j, (st.lines.getD j default).is_valid = true → j < i := by
    intro j hvj
    by_contra hge
    have hvi := h.validPrefix i j (by omega) hvj
    rw [hinv] at hvi
    cases hvi
  constructor
  · rw [herase]
    exact List.Nodup.cons hnotmem h.nodup
  · intro j
    rw [herase]
    simp only [List.mem_cons]
    by_cases hji : j = i
    · subst hji
      rw [getD_set_self _ _ _ _ hi]
      exact ⟨fun _ => rfl, fun _ => Or.inl rfl⟩
    · rw [getD_set_ne _ _ _ (fun h2 => hji h2.symm)]
      constructor
      · rintro (rfl | hm)
        · exact absurd rfl hji
        · exact (h.mem_iff j).mp hm
      · intro hvj
        exact Or.inr ((h.mem_iff j).mpr hvj)
  · intro j hvj
    by_cases hji : j = i
    · subst hji
      rw [getD_set_self _ _ _ _ hi]
      simp
    · rw [getD_set_ne _ _ _ (fun h2 => hji h2.symm)] at hvj ⊢
      exact h.tag_isSome j hvj
  · intro j k hjk hvk
    by_cases hki : k = i
    · subst hki
      by_cases hji : j = k
      · subst hji
        exact hvk
      · rw [getD_set_ne _ _ _ (fun h2 => hji h2.symm)]
        exact (hbelow j (by omega)).1
    · rw [getD_set_ne _ _ _ (fun h2 => hki h2.symm)] at hvk
      have hk_lt := hvalid_lt k hvk
      by_cases hji : j = i
      · omega
      · rw [getD_set_ne _ _ _ (fun h2 => hji h2.symm)]
        exact h.validPrefix j k hjk hvk
  · intro j k hjk hvj hvk
    by_cases hki : k = i
    · subst hki
      rw [getD_set_ne _ _ _ (fun h2 => (by omega : j ≠ k) h2.symm)] at hvj
      rw [getD_set_self _ _ _ _ hi, getD_set_ne _ _ _ (fun h2 => (by omega : j ≠ k) h2.symm)]
      exact (hbelow j (by omega)).2.1
    · by_cases hji : j = i
      · subst hji
        rw [getD_set_ne _ _ _ (fun h2 => hki h2.symm)] at hvk
        have := hvalid_lt k hvk
        omega
      · rw [getD_set_ne _ _ _ (fun h2 => hji h2.symm)] at hvj ⊢
        rw [getD_set_ne _ _ _ (fun h2 => hki h2.symm)] at hvk ⊢
        exact h.tagsDistinct j k hjk hvj hvk

lemma WFSet_evict (st : Set) (h : WFSet st) {t e : Nat}
    (hs : scanLines t st.lines = .full)
    (hlast : st.access_order.getLast? = some e) :
    WFSet ⟨st.lines.set e { st.lines.getD e default with tag := some t },
           e :: (st.access_order.dropLast).erase e⟩ := by
  have hall := scan_full_elim hs
  have hmem : e ∈ st.access_order := by
    have hd := getLast?_decomp hlast
    rw [hd]
    simp
  have hve : (st.lines.getD e default).is_valid = true := (h.mem_iff e).mp hmem
  have he_lt : e < st.lines.length := by
    by_contra hge
    rw [List.getD_eq_getElem?_getD, List.getElem?_eq_none (by omega)] at hve
    simp at hve
  obtain ⟨hnotdl, hdl_nodup⟩ :
      e ∉ st.access_order.dropLast ∧ st.access_order.dropLast.Nodup := by
    have hd := getLast?_decomp hlast
    have hnd := h.nodup
    rw [hd, List.nodup_append] at hnd
    exact ⟨fun hm => hnd.2.2 hm (by simp), hnd.1⟩
  have herase : (st.access_order.dropLast).erase e = st.access_order.dropLast :=
    List.erase_of_not_mem hnotdl
  have hmem_iff_dl : ∀ j, j ∈ st.access_order ↔ j = e ∨ j ∈ st.access_order.dropLast := by
    intro j
    constructor
    · intro hj
      have hj' := hj
      rw [getLast?_decomp hlast] at hj'
      rcases List.mem_append.mp hj' with hm | hm
      · exact Or.inr hm
      · exact Or.inl (by simpa using hm)
    · rintro (rfl | hm)
      · exact hmem
      · exact (List.dropLast_sublist st.access_order).subset hm
  have hvalid_eq : ∀ j,
      ((st.lines.set e { st.lines.getD e default with tag := some t }).getD j
        default).is_valid = (st.lines.getD j default).is_valid := by
    intro j
    by_cases hje : j = e
    · subst hje
      rw [getD_set_self _ _ _ _ he_lt]
    · rw [getD_set_ne _ _ _ (fun h2 => hje h2.symm)]
  constructor
  · rw [herase]
    exact List.Nodup.cons hnotdl hdl_nodup
  · intro j
    rw [herase]
    simp only [List.mem_cons]
    rw [hvalid_eq j]
    constructor
    · rintro (rfl | hm)
      · exact hve
      · exact (h.mem_iff j).mp ((hmem_iff_dl j).mpr (Or.inr hm))
    · intro hvj
      rcases (hmem_iff_dl j).mp ((h.mem_iff j).mpr hvj) with rfl | hm
      · exact Or.inl rfl
      · exact Or.inr hm
  · intro j hvj
    by_cases hje : j = e
    · subst hje
      rw [getD_set_self _ _ _ _ he_lt]
      simp
    · rw [getD_set_ne _ _ _ (fun h2 => hje h2.symm)] at hvj ⊢
      exact h.tag_isSome j hvj
  · intro j k hjk hvk
    rw [hvalid_eq k] at hvk
    rw [hvalid_eq j]
    exact h.validPrefix j k hjk hvk
  · intro j k hjk hvj hvk
    have hvj' := hvj
    have hvk' := hvk
    rw [hvalid_eq j] at hvj'
    rw [hvalid_eq k] at hvk'
    have hjlen : j < st.lines.length := by
      by_contra hge
      rw [List.getD_eq_getElem?_getD, List.getElem?_eq_none (by omega)] at hvj'
      simp at hvj'
    have hklen : k < st.lines.length := by
      by_contra hge
      rw [List.getD_eq_getElem?_getD, List.getElem?_eq_none (by omega)] at hvk'
      simp at hvk'
    by_cases hje : j = e
    · subst hje
      rw [getD_set_self _ _ _ _ he_lt, getD_set_ne _ _ _ (by omega : j ≠ k)]
      exact fun h2 => (hall k hklen).2.1 h2.symm
    · by_cases hke : k = e
      · subst hke
        rw [getD_set_ne _ _ _ (by omega : k ≠ j), getD_set_self _ _ _ _ he_lt]
        exact (hall j hjlen).2.1
      · rw [getD_set_ne _ _ _ (fun h2 => hje h2.symm), getD_set_ne _ _ _ (fun h2 => hke h2.symm)]
        exact h.tagsDistinct j k hjk hvj' hvk'

lemma WF_access {c : Cache} {si t : Nat} {c' : Cache} (hwf : WF c)
    (h : accessLoadStore c si t = some (.ok c')) : WF c' := by
  obtain ⟨hsi, hcase⟩ := access_ok_elim h
  intro sj
  rcases hcase with ⟨i, hscan, rfl⟩ | ⟨i, hscan, rfl⟩ | ⟨e, hscan, hlast, hb, rfl⟩
  · rw [hit_branch_spec]
    by_cases hj : sj = si
    · subst hj
      rw [getSet_cache_set c sj _ _ _ _ hsi]
      exact WFSet_hit _ (hwf sj) hscan
    · rw [getSet_cache_set_ne c _ _ _ _ (fun h2 => hj h2.symm)]
      exact hwf sj
  · rw [fill_branch_spec c si i t hsi]
    by_cases hj : sj = si
    · subst hj
      rw [getSet_cache_set c sj _ _ _ _ hsi]
      exact WFSet_fill _ (hwf sj) hscan
    · rw [getSet_cache_set_ne c _ _ _ _ (fun h2 => hj h2.symm)]
      exact hwf sj
  · rw [evict_branch_spec c si e t hsi]
    by_cases hj : sj = si
    · subst hj
      rw [getSet_cache_set c sj _ _ _ _ hsi]
      exact WFSet_evict _ (hwf sj) hscan hlast
    · rw [getSet_cache_set_ne c _ _ _ _ (fun h2 => hj h2.symm)]
      exact hwf sj

lemma WF_simulate {c : Cache} {op : Char} {si t : Nat} {c' : Cache} (hwf : WF c)
    (h : simulate_memory_access c op si t = some (.ok c')) : WF c' := by
  rcases simulate_ok_elim h with ⟨h1, _⟩ | ⟨_, c1, h1, h2⟩
  · exact WF_access hwf h1
  · exact WF_access (WF_access hwf h1) h2

lemma Cache.new_ok {s e b : Nat} {c : Cache} (h : Cache.new s e b = some (.ok c)) :
    c = { sets := List.replicate (2 ^ s)
            { lines := List.replicate e { tag := none, is_valid := false },
              access_order := [] },
          hits := 0, misses := 0, evictions := 0 } := by
  unfold Cache.new at h
  by_cases h0 : 2 ^ 32 ≤ s ∨ 2 ^ 32 ≤ b
  · rw [if_pos h0] at h
    cases h
  · rw [if_neg h0] at h
    cases hm : ((checked_pow2 s).bind fun sets =>
        (checked_pow2 b).bind fun blocks =>
        (checked_mul sets blocks).bind fun sets_blocks =>
        checked_mul sets_blocks e) with
    | none =>
      simp only [hm] at h
      simp at h
    | some v =>
      simp only [hm, Option.some.injEq, Except.ok.injEq] at h
      exact h.symm

lemma WFSet_fresh (e : Nat) :
    WFSet ⟨List.replicate e { tag := none, is_valid := false }, []⟩ := by
  have hval : ∀ i, ((List.replicate e
      { tag := none, is_valid := false } : List Line).getD i default).is_valid = false := by
    intro i
    rw [getD_replicate]
    split <;> rfl
  constructor
  · exact List.nodup_nil
  · intro i
    constructor
    · intro hm
      exact absurd hm (List.not_mem_nil i)
    · intro hv
      rw [hval i] at hv
      cases hv
  · intro i hvi
    rw [hval i] at hvi
    cases hvi
  · intro i j _ hvj
    rw [hval j] at hvj
    cases hvj
  · intro i j _ hvi
    rw [hval i] at hvi
    cases hvi

lemma WFSet_empty : WFSet (default : Set) := by
  have hval : ∀ i, ((default : Set).lines.getD i default).is_valid = false := by
    intro i
    rfl
  constructor
  · exact List.nodup_nil
  · intro i
    constructor
    · intro hm
      exact absurd hm (List.not_mem_nil i)
    · intro hv
      rw [hval i] at hv
      cases hv
  · intro i hvi
    rw [hval i] at hvi
    cases hvi
  · intro i j _ hvj
    rw [hval j] at hvj
    cases hvj
  · intro i j _ hvi
    rw [hval i] at hvi
    cases hvi

lemma WF_new {s e b : Nat} {c : Cache} (h : Cache.new s e b = some (.ok c)) : WF c := by
  rw [Cache.new_ok h]
  intro si
  unfold getSet
  rw [getD_replicate]
  split
  · exact WFSet_fresh e
  · exact WFSet_empty

lemma reachable_wf {c : Cache} (h : Reachable c) : WF c := by
  induction h with
  | init s e b c h0 => exact WF_new h0
  | step c op si t c' _ hstep ih => exact WF_simulate ih hstep

/-! ### A non-resident tag always misses (on a well-formed cache) -/

lemma miss_of_not_resident {c : Cache} {si t : Nat} (hwf : WF c)
    (hsi : si < c.sets.length) (hne : (getSet c si).lines ≠ [])
    (hnr : ∀ j, ¬((((getSet c si).lines.getD j default).is_valid = true) ∧
      ((getSet c si).lines.getD j default).tag = some t)) :
    ∃ c', accessLoadStore c si t = some (.ok c') ∧
      c'.misses = c.misses + 1 ∧ c'.hits = c.hits ∧
      c'.sets.length = c.sets.length := by
  have hwfs := hwf si
  cases hscan : scanLines t (getSet c si).lines with
  | hit i =>
    obtain ⟨hi, hv, ht, _⟩ := scan_hit_elim hscan
    exact absurd ⟨hv, ht⟩ (hnr i)
  | panicked =>
    obtain ⟨j, hj, hvj, htj⟩ := scan_panicked_elim hscan
    exact absurd htj (hwfs.tag_isSome j hvj)
  | fill i =>
    refine ⟨_, access_ok_fill_intro hsi hscan, ?_, ?_, ?_⟩ <;>
      rw [fill_branch_spec c si i t hsi] <;> simp
  | full =>
    have hlen0 : 0 < (getSet c si).lines.length := List.length_pos.mpr hne
    have hv0 := (scan_full_elim hscan 0 hlen0).1
    have h0mem : 0 ∈ (getSet c si).access_order := (hwfs.mem_iff 0).mpr hv0
    have hord_ne : (getSet c si).access_order ≠ [] := List.ne_nil_of_mem h0mem
    obtain ⟨e, hlast⟩ : ∃ e, (getSet c si).access_order.getLast? = some e :=
      ⟨_, List.getLast?_eq_getLast _ hord_ne⟩
    have hemem : e ∈ (getSet c si).access_order := by
      have hd := getLast?_decomp hlast
      rw [hd]
      simp
    have hve := (hwfs.mem_iff e).mp hemem
    have heb : e < (getSet c si).lines.length := by
      by_contra hge
      rw [List.getD_eq_getElem?_getD, List.getElem?_eq_none (by omega)] at hve
      simp at hve
    refine ⟨_, access_ok_evict_intro hsi hscan hlast heb, ?_, ?_, ?_⟩ <;>
      rw [evict_branch_spec c si e t hsi] <;> simp

/-! ### List utilities for the LRU run -/

lemma set_append_length {α : Type} (A B : List α) (v : α) :
    (A ++ B).set A.length v = A ++ B.set 0 v := by
  rw [List.set_append]
  simp

lemma replicate_set_zero {α : Type} (m : Nat) (d v : α) (h : 0 < m) :
    (List.replicate m d).set 0 v = v :: List.replicate (m - 1) d := by
  cases m with
  | zero => omega
  | succ m' =>
    rw [List.replicate_succ]
    rfl

lemma range_reverse_succ (k : Nat) :
    (List.range (k + 1)).reverse = k :: (List.range k).reverse := by
  rw [List.range_succ, List.reverse_append]
  simp

lemma range_reverse_getLast (e : Nat) (h : 0 < e) :
    (List.range e).reverse.getLast? = some 0 := by
  rw [List.getLast?_reverse, List.head?_range]
  simp [Nat.pos_iff_ne_zero.mp h]

lemma getD_map_mem (ts : List Nat) {j : Nat} (hj : j < ts.length) :
    ∃ t0 ∈ ts, (ts.map filledLine).getD j default = filledLine t0 := by
  have hj' : j < (ts.map filledLine).length := by simpa using hj
  rw [List.getD_eq_getElem _ _ hj']
  obtain ⟨t0, ht0, heq⟩ := List.mem_map.mp (List.getElem_mem hj')
  exact ⟨t0, ht0, heq.symm⟩

lemma scan_map_full (ts : List Nat) (t : Nat) (hnot : t ∉ ts) :
    scanLines t (ts.map filledLine) = .full := by
  apply scan_eq_full_of
  intro j hj
  obtain ⟨t0, ht0, heq⟩ := getD_map_mem ts (by simpa using hj)
  rw [heq]
  refine ⟨rfl, ?_, by simp [filledLine]⟩
  simp only [filledLine]
  intro h2
  injection h2 with h3
  exact hnot (h3 ▸ ht0)

lemma set_append_of_eq {α : Type} (A B : List α) (v : α) (i : Nat) (h : i = A.length) :
    (A ++ B).set i v = A ++ B.set 0 v := by
  subst h
  rw [List.set_append]
  simp

/-! ### Filling a fresh set with distinct tags -/

lemma run_fill {e : Nat} (ts : List Nat) (done : List Nat) (c : Cache) (si : Nat)
    (hsi : si < c.sets.length)
    (hset : getSet c si = ⟨(done.map filledLine) ++
        List.replicate (e - done.length) { tag := none, is_valid := false },
        (List.range done.length).reverse⟩)
    (hnodup : (done ++ ts).Nodup)
    (hlen : done.length + ts.length ≤ e) :
    ∃ c', runTrace c (ts.map fun t => ('L', si, t)) = some (.ok c') ∧
      getSet c' si = ⟨((done ++ ts).map filledLine) ++
        List.replicate (e - (done ++ ts).length) { tag := none, is_valid := false },
        (List.range (done ++ ts).length).reverse⟩ ∧
      c'.sets.length = c.sets.length ∧
      c'.hits = c.hits ∧ c'.misses = c.misses + ts.length ∧
      c'.evictions = c.evictions := by
  induction ts generalizing c done with
  | nil =>
    refine ⟨c, rfl, ?_, rfl, rfl, by simp, rfl⟩
    simpa using hset
  | cons t ts ih =>
    have hlen' : done.length + ts.length + 1 ≤ e := by
      simp only [List.length_cons] at hlen
      omega
    have hk_lt : done.length < e := by omega
    have htnotdone : t ∉ done := by
      rw [List.nodup_append] at hnodup
      exact fun hm => hnodup.2.2 hm (by simp)
    have hlines : (getSet c si).lines = (done.map filledLine) ++
        List.replicate (e - done.length) { tag := none, is_valid := false } := by
      rw [hset]
    have horder : (getSet c si).access_order = (List.range done.length).reverse := by
      rw [hset]
    have hlineslen : (getSet c si).lines.length = e := by
      rw [hlines]
      simp
      omega
    have hscan : scanLines t (getSet c si).lines = .fill done.length := by
      apply scan_eq_fill_of
      · rw [hlineslen]
        exact hk_lt
      · rw [hlines, List.getD_append_right _ _ _ _ (by simp)]
        rw [getD_replicate]
        split <;> rfl
      · intro j hj
        rw [hlines, List.getD_append _ _ _ j (by simpa using hj)]
        obtain ⟨t0, ht0, heq⟩ := getD_map_mem done hj
        rw [heq]
        refine ⟨rfl, ?_, by simp [filledLine]⟩
        simp only [filledLine]
        intro h2
        injection h2 with h3
        exact htnotdone (h3 ▸ ht0)
    have hacc1 := access_ok_fill_intro hsi hscan
    have hc1spec := fill_branch_spec c si done.length t hsi
    have hc1set : getSet (update_access_order (record_miss
        (fillLine c si done.length t)) si done.length) si =
        ⟨((done ++ [t]).map filledLine) ++
          List.replicate (e - (done.length + 1)) { tag := none, is_valid := false },
          (List.range (done.length + 1)).reverse⟩ := by
      rw [hc1spec, getSet_cache_set c si _ _ _ _ hsi]
      congr 1
      · rw [hlines]
        rw [set_append_of_eq _ _ _ _ (by simp : done.length = (done.map filledLine).length)]
        rw [replicate_set_zero _ _ _ (by omega)]
        simp [filledLine, Nat.sub_sub]
      · rw [horder]
        rw [List.erase_of_not_mem (by simp [List.mem_range])]
        rw [range_reverse_succ]
    have hc1len : (update_access_order (record_miss
        (fillLine c si done.length t)) si done.length).sets.length = c.sets.length := by
      rw [hc1spec]
      simp
    have hc1stats : (update_access_order (record_miss
          (fillLine c si done.length t)) si done.length).hits = c.hits ∧
        (update_access_order (record_miss
          (fillLine c si done.length t)) si done.length).misses = c.misses + 1 ∧
        (update_access_order (record_miss
          (fillLine c si done.length t)) si done.length).evictions = c.evictions := by
      rw [hc1spec]
      exact ⟨rfl, rfl, rfl⟩
    have hlen_app : (done ++ [t]).length = done.length + 1 := by simp
    have hset1 : getSet (update_access_order (record_miss
        (fillLine c si done.length t)) si done.length) si =
        ⟨((done ++ [t]).map filledLine) ++
          List.replicate (e - (done ++ [t]).length) { tag := none, is_valid := false },
          (List.range (done ++ [t]).length).reverse⟩ := by
      rw [hlen_app]
      exact hc1set
    have hnodup1 : ((done ++ [t]) ++ ts).Nodup := by
      simpa [List.append_assoc] using hnodup
    have hlen1 : (done ++ [t]).length + ts.length ≤ e := by
      rw [hlen_app]
      omega
    obtain ⟨c', hrun', hset', hslen', hh', hm', hv'⟩ :=
      ih (done ++ [t])
        (update_access_order (record_miss (fillLine c si done.length t)) si done.length)
        (by rw [hc1len]; exact hsi) hset1 hnodup1 hlen1
    refine ⟨c', ?_, ?_, ?_, ?_, ?_, ?_⟩
    · show runTrace c (('L', si, t) :: ts.map fun t => ('L', si, t)) = some (.ok c')
      unfold runTrace
      rw [simulate_eq_access (Or.inl rfl), hacc1]
      exact hrun'
    · rw [hset']
      simp [List.append_assoc]
    · rw [hslen', hc1len]
    · rw [hh', hc1stats.1]
    · rw [hm', hc1stats.2.1]
      simp only [List.length_cons]
      omega
    · rw [hv', hc1stats.2.2]

/-! ### Well-formedness along a whole trace -/

lemma WF_runTrace {ops : List (Char × Nat × Nat)} {c c' : Cache}
    (hwf : WF c) (h : runTrace c ops = some (.ok c')) : WF c' := by
  induction ops generalizing c with
  | nil =>
    simp only [runTrace, Option.some.injEq, Except.ok.injEq] at h
    exact h ▸ hwf
  | cons a rest ih =>
    obtain ⟨op, si, t⟩ := a
    unfold runTrace at h
    cases hr : simulate_memory_access c op si t with
    | none => rw [hr] at h; simp at h
    | some r0 =>
      cases r0 with
      | ok c1 =>
        simp only [hr] at h
        exact ih (WF_simulate hwf hr) h
      | error msg => simp only [hr] at h; simp at h

/-! ### Exact success condition of the constructor -/

lemma two_pow_le_max_iff (n : Nat) : 2 ^ n ≤ USIZE_MAX ↔ n ≤ 63 := by
  unfold USIZE_MAX
  constructor
  · intro h
    by_contra hgt
    have : (2 : Nat) ^ 64 ≤ 2 ^ n := Nat.pow_le_pow_right (by norm_num) (by omega)
    omega
  · intro h
    have : (2 : Nat) ^ n ≤ 2 ^ 63 := Nat.pow_le_pow_right (by norm_num) h
    have h63 : (2 : Nat) ^ 63 ≤ 2 ^ 64 - 1 := by norm_num
    omega

lemma Cache.new_eq (s e b : Nat) (hs : s < 2 ^ 32) (hb : b < 2 ^ 32) :
    Cache.new s e b =
      if 2 ^ s * 2 ^ b ≤ USIZE_MAX ∧ 2 ^ s * 2 ^ b * e ≤ USIZE_MAX then
        some (.ok (freshCache s e))
      else some (.error "cache size exceeds available space (overflow)") := by
  unfold Cache.new checked_pow2 checked_mul freshCache
  rw [if_neg (by omega)]
  by_cases h3 : 2 ^ s * 2 ^ b ≤ USIZE_MAX
  · have h1 : 2 ^ s ≤ USIZE_MAX := by
      refine le_trans ?_ h3
      calc 2 ^ s = 2 ^ s * 1 := by ring
      _ ≤ 2 ^ s * 2 ^ b := Nat.mul_le_mul_left _ Nat.one_le_two_pow
    have h2 : 2 ^ b ≤ USIZE_MAX := by
      refine le_trans ?_ h3
      calc 2 ^ b = 1 * 2 ^ b := by ring
      _ ≤ 2 ^ s * 2 ^ b := Nat.mul_le_mul_right _ Nat.one_le_two_pow
    by_cases h4 : 2 ^ s * 2 ^ b * e ≤ USIZE_MAX
    · simp [h1, h2, h3, h4]
    · simp [h1, h2, h3, h4]
  · by_cases h1 : 2 ^ s ≤ USIZE_MAX <;> by_cases h2 : 2 ^ b ≤ USIZE_MAX <;>
      simp [h1, h2, h3]

/-! ### Bit-level facts for the address round-trip -/

lemma testBit_mul_pow_add (x y n i : Nat) (h : y < 2 ^ n) :
    (x * 2 ^ n + y).testBit i = if i < n then y.testBit i else x.testBit (i - n) := by
  split
  case isTrue hi =>
    rw [Nat.testBit_to_div_mod, Nat.testBit_to_div_mod]
    have hsplit : (2 : Nat) ^ (n - i) = 2 * 2 ^ (n - i - 1) := by
      rw [← pow_succ']
      congr 1
      omega
    have hdiv : (x * 2 ^ n + y) / 2 ^ i = 2 * (x * 2 ^ (n - i - 1)) + y / 2 ^ i := by
      have h2 : (2 : Nat) ^ n = 2 ^ i * 2 ^ (n - i) := by
        rw [← pow_add]
        congr 1
        omega
      calc (x * 2 ^ n + y) / 2 ^ i
          = (2 ^ i * (x * 2 ^ (n - i)) + y) / 2 ^ i := by rw [h2]; ring_nf
        _ = x * 2 ^ (n - i) + y / 2 ^ i := Nat.mul_add_div (Nat.pos_pow_of_pos i (by norm_num)) _ _
        _ = 2 * (x * 2 ^ (n - i - 1)) + y / 2 ^ i := by rw [hsplit]; ring
    rw [hdiv, decide_eq_decide]
    omega
  case isFalse hi =>
    rw [Nat.testBit_to_div_mod, Nat.testBit_to_div_mod]
    have hdiv : (x * 2 ^ n + y) / 2 ^ i = x / 2 ^ (i - n) := by
      have h2 : (2 : Nat) ^ i = 2 ^ n * 2 ^ (i - n) := by
        rw [← pow_add]
        congr 1
        omega
      rw [h2, ← Nat.div_div_eq_div_mul]
      have hfst : (x * 2 ^ n + y) / 2 ^ n = x := by
        rw [mul_comm, Nat.mul_add_div (Nat.pos_pow_of_pos n (by norm_num))]
        simp [Nat.div_eq_of_lt h]
      rw [hfst]
    rw [hdiv]

lemma lor_mul_pow_add (x y n : Nat) (h : y < 2 ^ n) :
    (x * 2 ^ n) ||| y = x * 2 ^ n + y := by
  apply Nat.eq_of_testBit_eq
  intro i
  rw [Nat.testBit_lor, ← Nat.shiftLeft_eq, Nat.testBit_shiftLeft,
    Nat.shiftLeft_eq, testBit_mul_pow_add x y n i h]
  by_cases hi : i < n
  · have hge : ¬ n ≤ i := by omega
    simp [hi, hge]
  · have hge : n ≤ i := by omega
    have hyb : y.testBit i = false :=
      Nat.testBit_lt_two_pow
        (lt_of_lt_of_le h (Nat.pow_le_pow_right (by norm_num) hge))
    simp [hi, hge, hyb]

/-! ### Further helpers for the claims -/

lemma WF_mem {c : Cache} (hwf : WF c) {st : Set} (hmem : st ∈ c.sets) : WFSet st := by
  obtain ⟨i, hi, heq⟩ := List.mem_iff_getElem.mp hmem
  have hwfi := hwf i
  unfold getSet at hwfi
  rw [List.getD_eq_getElem _ _ hi, heq] at hwfi
  exact hwfi

lemma traceWeight_append (p q : List (Char × Nat × Nat)) :
    traceWeight (p ++ q) = traceWeight p + traceWeight q := by
  simp [traceWeight]

lemma getD_map_filledLine (ts : List Nat) {i : Nat} (hi : i < ts.length) :
    (ts.map filledLine).getD i default = filledLine (ts.getD i 0) := by
  rw [List.getD_eq_getElem _ _ (by simpa using hi), List.getD_eq_getElem _ _ hi]
  simp

lemma not_resident_map (ts : List Nat) (t : Nat) (hnot : t ∉ ts) :
    ∀ j, ¬(((ts.map filledLine).getD j default).is_valid = true ∧
      ((ts.map filledLine).getD j default).tag = some t) := by
  rintro j ⟨hv, ht⟩
  by_cases hj : j < ts.length
  · obtain ⟨t0, ht0, heq⟩ := getD_map_mem ts hj
    rw [heq] at ht
    simp only [filledLine] at ht
    injection ht with ht'
    exact hnot (ht' ▸ ht0)
  · rw [List.getD_eq_getElem?_getD, List.getElem?_eq_none (by simp; omega)] at hv
    simp at hv

lemma decode_ok_elim {addr s b tag set_index : Nat} (hsb : s + b ≤ 64)
    (h : decodeAddress addr s b = some (.ok (tag, set_index))) :
    s ≠ 0 ∧ s + b ≠ 64 ∧
    tag = addr / 2 ^ (s + b) % 2 ^ (64 - b - s) ∧
    set_index = addr / 2 ^ b % 2 ^ s := by
  unfold decodeAddress at h
  rw [if_neg (by omega), if_neg (by omega)] at h
  injection h with h'
  unfold parseBinSlice at h'
  by_cases h0 : (0 : Nat) = 64 - b - s
  · rw [if_pos h0] at h'
    cases h'
  · rw [if_neg h0] at h'
    by_cases h1 : 64 - b - s = 64 - b
    · rw [if_pos h1] at h'
      cases h'
    · rw [if_neg h1] at h'
      injection h' with h''
      injection h'' with ht hs2
      have hs0 : s ≠ 0 := fun he => h1 (by omega)
      have hsb64 : s + b ≠ 64 := fun he => h0 (by omega)
      refine ⟨hs0, hsb64, ?_, ?_⟩
      · rw [← ht]
        have e1 : 64 - (64 - b - s) = s + b := by omega
        have e2 : 64 - b - s - 0 = 64 - b - s := by omega
        rw [e1, e2]
      · rw [← hs2]
        have e3 : 64 - (64 - b) = b := by omega
        have e4 : 64 - b - (64 - b - s) = s := by omega
        rw [e3, e4]

/-! ## The claims -/

/-- C1: for every cache state and every (set_index, tag), simulating a
Modify operation is exactly a Load followed by a Store to the same
(set_index, tag) (with the first failure propagated), and whenever it
succeeds it records at least one hit and at most one miss (with at most
one eviction) — never two misses: the two recorded outcomes sum to
exactly two, of which at least one is a hit. -/
theorem modify_is_load_then_store (c : Cache) (set_index tag : Nat) :
    (simulate_memory_access c 'M' set_index tag =
      match simulate_memory_access c 'L' set_index tag with
      | some (.ok c1) => simulate_memory_access c1 'S' set_index tag
      | r => r) ∧
    (∀ c', simulate_memory_access c 'M' set_index tag = some (.ok c') →
      c.hits + 1 ≤ c'.hits ∧ c'.misses ≤ c.misses + 1 ∧
      c'.evictions ≤ c.evictions + 1 ∧
      c'.hits + c'.misses = c.hits + c.misses + 2) := by
  refine ⟨rfl, fun c' h => ?_⟩
  exact modify_stats h

/-- C3 counterexample: the claim says construction fails for E = 0 and
succeeds for every geometry with S + b ≤ 64 and E ≥ 1.  The code accepts
E = 0 (checked multiplication by zero cannot overflow) and rejects
S = 32, E = 1, b = 32 (the byte size 2^64 overflows a 64-bit usize even
though S + b = 64 ≤ 64). -/
theorem cache_new_geometry_counterexample :
    Cache.new 1 0 1 = some (.ok ⟨[⟨[], []⟩, ⟨[], []⟩], 0, 0, 0⟩) ∧
    Cache.new 32 1 32 =
      some (.error "cache size exceeds available space (overflow)") :=
  ⟨rfl, rfl⟩

/-- C3 (amended): for s, b < 2^32 (larger values panic in `try_into`),
construction succeeds — building the full fresh cache — exactly when
s + b ≤ 63 and 2^(s+b)·e fits a 64-bit usize, and otherwise fails with an
error, leaving no partial cache; E = 0 is not rejected. -/
theorem cache_new_geometry_amended (s e b : Nat)
    (hs : s < 2 ^ 32) (hb : b < 2 ^ 32) :
    (s + b ≤ 63 ∧ 2 ^ (s + b) * e ≤ USIZE_MAX →
      Cache.new s e b = some (.ok (freshCache s e))) ∧
    (¬(s + b ≤ 63 ∧ 2 ^ (s + b) * e ≤ USIZE_MAX) →
      Cache.new s e b =
        some (.error "cache size exceeds available space (overflow)")) := by
  have hmul : (2 : Nat) ^ s * 2 ^ b = 2 ^ (s + b) := (pow_add 2 s b).symm
  have hiff : (2 ^ s * 2 ^ b ≤ USIZE_MAX ∧ 2 ^ s * 2 ^ b * e ≤ USIZE_MAX) ↔
      (s + b ≤ 63 ∧ 2 ^ (s + b) * e ≤ USIZE_MAX) := by
    rw [hmul, two_pow_le_max_iff]
  rw [Cache.new_eq s e b hs hb]
  constructor
  · intro hc
    rw [if_pos (hiff.mpr hc)]
  · intro hc
    rw [if_neg (fun h2 => hc (hiff.mp h2))]

/-- C4 counterexample: the claim says hits + misses equals the number of
non-instruction-fetch decoded accesses processed.  One decoded Modify
access from a fresh cache records one miss and one hit: hits + misses = 2
for one decoded access. -/
theorem stats_count_counterexample :
    Cache.new 1 1 1 = some (.ok (freshCache 1 1)) ∧
    runTrace (freshCache 1 1) [('M', 0, 0)] =
      some (.ok ⟨[⟨[⟨some 0, true⟩], [0]⟩, ⟨[⟨none, false⟩], []⟩], 1, 1, 0⟩) ∧
    (⟨[⟨[⟨some 0, true⟩], [0]⟩, ⟨[⟨none, false⟩], []⟩], 1, 1, 0⟩ : Cache).hits +
      (⟨[⟨[⟨some 0, true⟩], [0]⟩, ⟨[⟨none, false⟩], []⟩], 1, 1, 0⟩ : Cache).misses ≠ 1 :=
  ⟨rfl, rfl, by decide⟩

/-- C4 (amended): after processing any trace from a fresh cache,
hits + misses equals the weighted number of decoded accesses (one
outcome per Load/Store, two per Modify, since a Modify is simulated as
two accesses); evictions ≤ misses; and all three counters are
monotonically non-decreasing over the run. -/
theorem stats_weighted_monotone (s e b : Nat) (c0 : Cache)
    (p q : List (Char × Nat × Nat)) (cp c' : Cache)
    (h0 : Cache.new s e b = some (.ok c0))
    (hp : runTrace c0 p = some (.ok cp))
    (hq : runTrace cp q = some (.ok c')) :
    cp.hits + cp.misses = traceWeight p ∧
    c'.hits + c'.misses = traceWeight (p ++ q) ∧
    cp.evictions ≤ cp.misses ∧ c'.evictions ≤ c'.misses ∧
    cp.hits ≤ c'.hits ∧ cp.misses ≤ c'.misses ∧ cp.evictions ≤ c'.evictions := by
  have h0' := Cache.new_ok h0
  have hz : c0.hits = 0 ∧ c0.misses = 0 ∧ c0.evictions = 0 := by
    rw [h0']
    exact ⟨rfl, rfl, rfl⟩
  obtain ⟨_, w1, a1, a2, a3, a4⟩ := runTrace_stats hp
  obtain ⟨_, w2, b1, b2, b3, b4⟩ := runTrace_stats hq
  rw [traceWeight_append]
  obtain ⟨z1, z2, z3⟩ := hz
  exact ⟨by omega, by omega, by omega, by omega, by omega, by omega, by omega⟩

/-- C5: for every 64-bit address and every geometry with S + b ≤ 64,
whenever address decomposition produces a (tag, set_index) pair,
reassembling (tag <<< (S+b)) ||| (set_index <<< b) gives back the original
address with its low b bits zeroed. -/
theorem address_roundtrip (addr s b tag set_index : Nat)
    (haddr : addr < 2 ^ 64) (hsb : s + b ≤ 64)
    (h : decodeAddress addr s b = some (.ok (tag, set_index))) :
    (tag <<< (s + b)) ||| (set_index <<< b) = addr / 2 ^ b * 2 ^ b := by
  obtain ⟨hs0, hsb64, htag, hset⟩ := decode_ok_elim hsb h
  have hpos : ∀ n : Nat, 0 < 2 ^ n := fun n => Nat.pos_pow_of_pos n (by norm_num)
  have htag' : tag = addr / 2 ^ (s + b) := by
    rw [htag]
    apply Nat.mod_eq_of_lt
    rw [Nat.div_lt_iff_lt_mul (hpos _)]
    calc addr < 2 ^ 64 := haddr
      _ = 2 ^ (64 - b - s) * 2 ^ (s + b) := by
          rw [← pow_add]
          congr 1
          omega
  have hset_lt : set_index < 2 ^ s := by
    rw [hset]
    exact Nat.mod_lt _ (hpos _)
  rw [Nat.shiftLeft_eq, Nat.shiftLeft_eq]
  rw [lor_mul_pow_add tag (set_index * 2 ^ b) (s + b)
    (by
      calc set_index * 2 ^ b < 2 ^ s * 2 ^ b :=
            (Nat.mul_lt_mul_right (hpos b)).mpr hset_lt
        _ = 2 ^ (s + b) := (pow_add 2 s b).symm)]
  rw [htag', hset]
  have hdd : addr / 2 ^ (s + b) = addr / 2 ^ b / 2 ^ s := by
    have h2 : (2 : Nat) ^ (s + b) = 2 ^ b * 2 ^ s := by
      rw [← pow_add]
      congr 1
      omega
    rw [h2, ← Nat.div_div_eq_div_mul]
  rw [hdd]
  have hq := Nat.div_add_mod (addr / 2 ^ b) (2 ^ s)
  calc addr / 2 ^ b / 2 ^ s * 2 ^ (s + b) + addr / 2 ^ b % 2 ^ s * 2 ^ b
      = (2 ^ s * (addr / 2 ^ b / 2 ^ s) + addr / 2 ^ b % 2 ^ s) * 2 ^ b := by
        rw [pow_add]
        ring
    _ = addr / 2 ^ b * 2 ^ b := by rw [hq]

/-- C6: in every reachable cache state, each set's recency ordering is
duplicate-free and contains exactly the currently valid line indices; and
every (successful) access operation from such a state preserves this. -/
theorem access_order_exactly_valid (c : Cache) (hr : Reachable c) :
    (∀ st ∈ c.sets, st.access_order.Nodup ∧
      ∀ i, (i ∈ st.access_order ↔ (st.lines.getD i default).is_valid = true)) ∧
    (∀ op set_index tag c',
      simulate_memory_access c op set_index tag = some (.ok c') →
      ∀ st ∈ c'.sets, st.access_order.Nodup ∧
        ∀ i, (i ∈ st.access_order ↔ (st.lines.getD i default).is_valid = true)) := by
  have hwf := reachable_wf hr
  constructor
  · intro st hmem
    have hws := WF_mem hwf hmem
    exact ⟨hws.nodup, hws.mem_iff⟩
  · intro op si t c' hstep st hmem
    have hws := WF_mem (WF_simulate hwf hstep) hmem
    exact ⟨hws.nodup, hws.mem_iff⟩

/-- C7: a successful Load or Store that hits changes no line's
valid/tag fields; one that misses changes exactly one line, in the
accessed set, and every other line of the cache is unchanged. -/
theorem access_frame_effect (c : Cache) (op : Char) (set_index tag : Nat)
    (c' : Cache) (hop : op = 'L' ∨ op = 'S')
    (h : simulate_memory_access c op set_index tag = some (.ok c')) :
    (c'.hits = c.hits + 1 ∧
      ∀ sj k, (getSet c' sj).lines.getD k default =
        (getSet c sj).lines.getD k default) ∨
    (c'.misses = c.misses + 1 ∧
      ∃ i, (getSet c' set_index).lines.getD i default ≠
          (getSet c set_index).lines.getD i default ∧
        ∀ sj k, ¬(sj = set_index ∧ k = i) →
          (getSet c' sj).lines.getD k default =
            (getSet c sj).lines.getD k default) := by
  rw [simulate_eq_access hop] at h
  obtain ⟨hsi, hcase⟩ := access_ok_elim h
  rcases hcase with ⟨i, hscan, rfl⟩ | ⟨i, hscan, rfl⟩ | ⟨e, hscan, hlast, hb, rfl⟩
  · left
    rw [hit_branch_spec]
    refine ⟨rfl, fun sj k => ?_⟩
    by_cases hj : sj = set_index
    · subst hj
      rw [getSet_cache_set c sj _ _ _ _ hsi]
    · rw [getSet_cache_set_ne c _ _ _ _ (fun h2 => hj h2.symm)]
  · right
    obtain ⟨hi, hinv, _⟩ := scan_fill_elim hscan
    rw [fill_branch_spec c set_index i tag hsi]
    refine ⟨rfl, i, ?_, ?_⟩
    · rw [getSet_cache_set c set_index _ _ _ _ hsi, getD_set_self _ _ _ _ hi]
      intro heq
      have := congrArg Line.is_valid heq
      rw [hinv] at this
      cases this
    · intro sj k hne
      by_cases hj : sj = set_index
      · subst hj
        rw [getSet_cache_set c sj _ _ _ _ hsi]
        have hk : k ≠ i := fun he => hne ⟨rfl, he⟩
        rw [getD_set_ne _ _ _ (fun h2 => hk h2.symm)]
      · rw [getSet_cache_set_ne c _ _ _ _ (fun h2 => hj h2.symm)]
  · right
    have hfacts := scan_full_elim hscan e hb
    rw [evict_branch_spec c set_index e tag hsi]
    refine ⟨rfl, e, ?_, ?_⟩
    · rw [getSet_cache_set c set_index _ _ _ _ hsi, getD_set_self _ _ _ _ hb]
      intro heq
      exact hfacts.2.1 (congrArg Line.tag heq).symm
    · intro sj k hne
      by_cases hj : sj = set_index
      · subst hj
        rw [getSet_cache_set c sj _ _ _ _ hsi]
        have hk : k ≠ e := fun he => hne ⟨rfl, he⟩
        rw [getD_set_ne _ _ _ (fun h2 => hk h2.symm)]
      · rw [getSet_cache_set_ne c _ _ _ _ (fun h2 => hj h2.symm)]

/-- C8 counterexample: the claim says that from every cache state,
accessing the same (set_index, tag) twice in a row yields Miss then Hit.
In the reachable state where tag 0 is already resident in set 0 (fresh
cache after one Load of (0, 0)), both accesses of the back-to-back pair
are hits: the first one already increments `hits`, not `misses`. -/
theorem miss_then_hit_counterexample :
    simulate_memory_access (freshCache 1 1) 'L' 0 0 =
      some (.ok ⟨[⟨[⟨some 0, true⟩], [0]⟩, ⟨[⟨none, false⟩], []⟩], 0, 1, 0⟩) ∧
    simulate_memory_access
        (⟨[⟨[⟨some 0, true⟩], [0]⟩, ⟨[⟨none, false⟩], []⟩], 0, 1, 0⟩ : Cache) 'L' 0 0 =
      some (.ok ⟨[⟨[⟨some 0, true⟩], [0]⟩, ⟨[⟨none, false⟩], []⟩], 1, 1, 0⟩) ∧
    simulate_memory_access
        (⟨[⟨[⟨some 0, true⟩], [0]⟩, ⟨[⟨none, false⟩], []⟩], 1, 1, 0⟩ : Cache) 'L' 0 0 =
      some (.ok ⟨[⟨[⟨some 0, true⟩], [0]⟩, ⟨[⟨none, false⟩], []⟩], 2, 1, 0⟩) :=
  ⟨rfl, rfl, rfl⟩

/-- C8 (amended): on a well-formed cache state, if the requested tag is
NOT currently resident in its (nonempty, in-range) set, then two
back-to-back accesses to the same (set_index, tag) yield Miss then Hit. -/
theorem miss_then_hit_amended (c : Cache) (set_index tag : Nat)
    (op1 op2 : Char) (hwf : WF c) (hsi : set_index < c.sets.length)
    (hne : (getSet c set_index).lines ≠ [])
    (hnr : ∀ j, ¬(((getSet c set_index).lines.getD j default).is_valid = true ∧
      ((getSet c set_index).lines.getD j default).tag = some tag))
    (hop1 : op1 = 'L' ∨ op1 = 'S') (hop2 : op2 = 'L' ∨ op2 = 'S') :
    ∃ c1 c2, simulate_memory_access c op1 set_index tag = some (.ok c1) ∧
      c1.misses = c.misses + 1 ∧ c1.hits = c.hits ∧
      simulate_memory_access c1 op2 set_index tag = some (.ok c2) ∧
      c2.hits = c1.hits + 1 ∧ c2.misses = c1.misses := by
  obtain ⟨c1, hacc, hm, hh, hlen⟩ := miss_of_not_resident hwf hsi hne hnr
  obtain ⟨i, hhit⟩ := access_ok_hit_next hacc
  refine ⟨c1, update_access_order (record_hit c1) set_index i, ?_, hm, hh, ?_, ?_, ?_⟩
  · rw [simulate_eq_access hop1]
    exact hacc
  · rw [simulate_eq_access hop2]
    exact hhit
  · rw [hit_branch_spec]
  · rw [hit_branch_spec]

/-- C9 counterexample: the claim says the access operation itself never
modifies the statistics counters.  A single Load on a fresh cache already
increments `misses` inside `simulate_memory_access` (the returned cache
carries the updated counter; there is no separate caller-side update). -/
theorem stats_decoupling_counterexample :
    simulate_memory_access (freshCache 1 1) 'L' 0 0 =
      some (.ok ⟨[⟨[⟨some 0, true⟩], [0]⟩, ⟨[⟨none, false⟩], []⟩], 0, 1, 0⟩) ∧
    (⟨[⟨[⟨some 0, true⟩], [0]⟩, ⟨[⟨none, false⟩], []⟩], 0, 1, 0⟩ : Cache).misses ≠
      (freshCache 1 1).misses :=
  ⟨rfl, by decide⟩

/-- C9 (amended): the access operation itself updates the statistics
according to the outcome — a hit increments `hits`, a miss increments
`misses`, an eviction additionally increments `evictions` — rather than
returning a classification for the caller to record. -/
theorem stats_updated_inside_access (c : Cache) (op : Char)
    (set_index tag : Nat) (c' : Cache) (hop : op = 'L' ∨ op = 'S')
    (h : simulate_memory_access c op set_index tag = some (.ok c')) :
    (c'.hits = c.hits + 1 ∧ c'.misses = c.misses ∧ c'.evictions = c.evictions) ∨
    (c'.hits = c.hits ∧ c'.misses = c.misses + 1 ∧
      (c'.evictions = c.evictions ∨ c'.evictions = c.evictions + 1)) := by
  rw [simulate_eq_access hop] at h
  exact (access_stats h).2

/-- C10: in every reachable cache state the valid lines of each set form a
contiguous prefix of the line array, and consequently the interleaved scan
can only report a fill at index i when every line at a higher index is
invalid — it never fills an empty line while the requested tag is resident
at a higher index. -/
theorem valid_lines_form_prefix (c : Cache) (hr : Reachable c) :
    ∀ st ∈ c.sets,
      (∀ i j, i ≤ j → (st.lines.getD j default).is_valid = true →
        (st.lines.getD i default).is_valid = true) ∧
      (∀ tag i, scanLines tag st.lines = .fill i →
        ∀ j, i < j → (st.lines.getD j default).is_valid = false) := by
  intro st hmem
  have hwfs := WF_mem (reachable_wf hr) hmem
  refine ⟨hwfs.validPrefix, ?_⟩
  intro tag i hfill j hij
  obtain ⟨hi, hinv, _⟩ := scan_fill_elim hfill
  cases hval : (st.lines.getD j default).is_valid with
  | false => rfl
  | true =>
    have hvi := hwfs.validPrefix i j (by omega) hval
    rw [hinv] at hvi
    cases hvi

/-- C2: starting from a freshly constructed cache, for any set of capacity
E ≥ 1: accessing E distinct tags mapping to that set fills all E lines in
access order with zero evictions (and zero hits); the (E+1)-th access with
a new distinct tag records a miss with eviction whose victim is the
least-recently-touched resident line — the back of the recency deque is
line 0, which holds the first tag accessed, and afterwards line 0 holds
the new tag; and a subsequent access to the evicted (first) tag is again a
miss. -/
theorem lru_fill_and_evict (s e b : Nat) (c0 : Cache) (set_index : Nat)
    (ts : List Nat) (tnew : Nat)
    (h0 : Cache.new s e b = some (.ok c0))
    (hsi : set_index < c0.sets.length)
    (hnodup : ts.Nodup) (hts : ts.length = e) (he : 1 ≤ e)
    (hnew : tnew ∉ ts) :
    ∃ c1, runTrace c0 (ts.map fun t => ('L', set_index, t)) = some (.ok c1) ∧
      (∀ i, i < e →
        (getSet c1 set_index).lines.getD i default = filledLine (ts.getD i 0)) ∧
      c1.hits = 0 ∧ c1.misses = e ∧ c1.evictions = 0 ∧
      (getSet c1 set_index).access_order.getLast? = some 0 ∧
      ∃ c2, accessLoadStore c1 set_index tnew = some (.ok c2) ∧
        c2.misses = c1.misses + 1 ∧ c2.evictions = c1.evictions + 1 ∧
        c2.hits = c1.hits ∧
        (getSet c2 set_index).lines.getD 0 default = filledLine tnew ∧
        ∃ c3, accessLoadStore c2 set_index (ts.getD 0 0) = some (.ok c3) ∧
          c3.misses = c2.misses + 1 ∧ c3.hits = c2.hits := by
  cases ts with
  | nil =>
    rw [List.length_nil] at hts
    omega
  | cons t0 rest =>
    have h0' := Cache.new_ok h0
    have hslen : c0.sets.length = 2 ^ s := by
      rw [h0']
      simp
    have hsi2 : set_index < 2 ^ s := by
      rw [← hslen]
      exact hsi
    have hfresh : getSet c0 set_index =
        ⟨List.replicate e { tag := none, is_valid := false }, []⟩ := by
      rw [h0']
      unfold getSet
      rw [getD_replicate, if_pos hsi2]
    obtain ⟨c1, hrun, hset1, hlen1, hh1, hm1, hv1⟩ :=
      run_fill (e := e) (t0 :: rest) [] c0 set_index hsi
        (by simpa using hfresh)
        (by simpa using hnodup)
        (by simp only [List.length_nil, Nat.zero_add]; omega)
    have hset1' : getSet c1 set_index =
        ⟨(t0 :: rest).map filledLine, (List.range e).reverse⟩ := by
      rw [hset1, List.nil_append, hts]
      simp
    have hz : c0.hits = 0 ∧ c0.misses = 0 ∧ c0.evictions = 0 := by
      rw [h0']
      exact ⟨rfl, rfl, rfl⟩
    have hsi1 : set_index < c1.sets.length := by
      rw [hlen1]
      exact hsi
    have hwf1 : WF c1 := WF_runTrace (WF_new h0) hrun
    have hscan2 : scanLines tnew (getSet c1 set_index).lines = .full := by
      rw [hset1']
      exact scan_map_full _ tnew hnew
    have hlast1 : (getSet c1 set_index).access_order.getLast? = some 0 := by
      rw [hset1']
      exact range_reverse_getLast e he
    have hb1 : 0 < (getSet c1 set_index).lines.length := by
      rw [hset1']
      simp
    have hacc2 := access_ok_evict_intro hsi1 hscan2 hlast1 hb1
    have hc2lines : (getSet (update_access_order (record_eviction (record_miss
        (overwriteTag (popBack c1 set_index) set_index 0 tnew))) set_index 0)
          set_index).lines = (tnew :: rest).map filledLine := by
      rw [evict_branch_spec c1 set_index 0 tnew hsi1,
        getSet_cache_set c1 set_index _ _ _ _ hsi1]
      rw [hset1']
      rfl
    have ht0new : t0 ∉ tnew :: rest := by
      intro hmem
      rcases List.mem_cons.mp hmem with heq | hmem2
      · exact hnew (by rw [heq]; exact List.mem_cons_self tnew rest)
      · exact (List.nodup_cons.mp hnodup).1 hmem2
    refine ⟨c1, hrun, ?_, ?_, ?_, ?_, hlast1, ?_⟩
    · intro i hi
      rw [hset1']
      exact getD_map_filledLine (t0 :: rest) (by rw [hts]; exact hi)
    · rw [hh1]
      exact hz.1
    · rw [hm1, hz.2.1, hts]
      omega
    · rw [hv1]
      exact hz.2.2
    · refine ⟨_, hacc2, ?_, ?_, ?_, ?_, ?_⟩
      · rw [evict_branch_spec c1 set_index 0 tnew hsi1]
      · rw [evict_branch_spec c1 set_index 0 tnew hsi1]
      · rw [evict_branch_spec c1 set_index 0 tnew hsi1]
      · rw [hc2lines]
        rfl
      · have hwf2 := WF_access hwf1 hacc2
        obtain ⟨c3, hacc3, hm3, hh3, _⟩ :=
          miss_of_not_resident hwf2
            (by
              rw [evict_branch_spec c1 set_index 0 tnew hsi1]
              simpa using hsi1)
            (by
              rw [hc2lines]
              simp)
            (fun j => by
              rw [hc2lines]
              exact not_resident_map (tnew :: rest) t0 ht0new j)
        exact ⟨c3, hacc3, hm3, hh3⟩

/-! ## Witnesses -/

/-- Witness for C1 at a fresh 2-set, 1-line cache and a cold Modify:
it records exactly one miss and one hit. -/
theorem modify_is_load_then_store_witness :
    (freshCache 1 1).hits + 1 ≤
      (⟨[⟨[⟨some 0, true⟩], [0]⟩, ⟨[⟨none, false⟩], []⟩], 1, 1, 0⟩ : Cache).hits ∧
    (⟨[⟨[⟨some 0, true⟩], [0]⟩, ⟨[⟨none, false⟩], []⟩], 1, 1, 0⟩ : Cache).misses ≤
      (freshCache 1 1).misses + 1 ∧
    (⟨[⟨[⟨some 0, true⟩], [0]⟩, ⟨[⟨none, false⟩], []⟩], 1, 1, 0⟩ : Cache).evictions ≤
      (freshCache 1 1).evictions + 1 ∧
    (⟨[⟨[⟨some 0, true⟩], [0]⟩, ⟨[⟨none, false⟩], []⟩], 1, 1, 0⟩ : Cache).hits +
        (⟨[⟨[⟨some 0, true⟩], [0]⟩, ⟨[⟨none, false⟩], []⟩], 1, 1, 0⟩ : Cache).misses =
      (freshCache 1 1).hits + (freshCache 1 1).misses + 2 :=
  (modify_is_load_then_store (freshCache 1 1) 0 0).2
    ⟨[⟨[⟨some 0, true⟩], [0]⟩, ⟨[⟨none, false⟩], []⟩], 1, 1, 0⟩ rfl

/-- Witness for C2 at geometry S=1, E=2, b=1 with tags [5, 7] and new tag 9. -/
theorem lru_fill_and_evict_witness :
    ∃ c1, runTrace (freshCache 1 2) ([5, 7].map fun t => ('L', 0, t)) = some (.ok c1) ∧
      (∀ i, i < 2 →
        (getSet c1 0).lines.getD i default = filledLine ([5, 7].getD i 0)) ∧
      c1.hits = 0 ∧ c1.misses = 2 ∧ c1.evictions = 0 ∧
      (getSet c1 0).access_order.getLast? = some 0 ∧
      ∃ c2, accessLoadStore c1 0 9 = some (.ok c2) ∧
        c2.misses = c1.misses + 1 ∧ c2.evictions = c1.evictions + 1 ∧
        c2.hits = c1.hits ∧
        (getSet c2 0).lines.getD 0 default = filledLine 9 ∧
        ∃ c3, accessLoadStore c2 0 ([5, 7].getD 0 0) = some (.ok c3) ∧
          c3.misses = c2.misses + 1 ∧ c3.hits = c2.hits :=
  lru_fill_and_evict 1 2 1 (freshCache 1 2) 0 [5, 7] 9 rfl (by decide) (by decide)
    rfl (by decide) (by decide)

/-- Witness for the amended C3 at geometry S=4, E=2, b=4. -/
theorem cache_new_geometry_amended_witness :
    (4 : Nat) < 2 ^ 32 ∧ (4 : Nat) + 4 ≤ 63 ∧ 2 ^ (4 + 4) * 2 ≤ USIZE_MAX ∧
    Cache.new 4 2 4 = some (.ok (freshCache 4 2)) :=
  ⟨by decide, by decide, by decide,
    (cache_new_geometry_amended 4 2 4 (by decide) (by decide)).1 ⟨by decide, by decide⟩⟩

/-- Witness for the amended C4: a Load then a Modify from a fresh cache
record 1 and 2 outcomes respectively, monotonically. -/
theorem stats_weighted_monotone_witness :
    (⟨[⟨[⟨some 0, true⟩], [0]⟩, ⟨[⟨none, false⟩], []⟩], 0, 1, 0⟩ : Cache).hits +
        (⟨[⟨[⟨some 0, true⟩], [0]⟩, ⟨[⟨none, false⟩], []⟩], 0, 1, 0⟩ : Cache).misses =
      traceWeight [('L', 0, 0)] ∧
    (⟨[⟨[⟨some 0, true⟩], [0]⟩, ⟨[⟨none, false⟩], []⟩], 2, 1, 0⟩ : Cache).hits +
        (⟨[⟨[⟨some 0, true⟩], [0]⟩, ⟨[⟨none, false⟩], []⟩], 2, 1, 0⟩ : Cache).misses =
      traceWeight ([('L', 0, 0)] ++ [('M', 0, 0)]) ∧
    (⟨[⟨[⟨some 0, true⟩], [0]⟩, ⟨[⟨none, false⟩], []⟩], 0, 1, 0⟩ : Cache).evictions ≤
      (⟨[⟨[⟨some 0, true⟩], [0]⟩, ⟨[⟨none, false⟩], []⟩], 0, 1, 0⟩ : Cache).misses ∧
    (⟨[⟨[⟨some 0, true⟩], [0]⟩, ⟨[⟨none, false⟩], []⟩], 2, 1, 0⟩ : Cache).evictions ≤
      (⟨[⟨[⟨some 0, true⟩], [0]⟩, ⟨[⟨none, false⟩], []⟩], 2, 1, 0⟩ : Cache).misses ∧
    (⟨[⟨[⟨some 0, true⟩], [0]⟩, ⟨[⟨none, false⟩], []⟩], 0, 1, 0⟩ : Cache).hits ≤
      (⟨[⟨[⟨some 0, true⟩], [0]⟩, ⟨[⟨none, false⟩], []⟩], 2, 1, 0⟩ : Cache).hits ∧
    (⟨[⟨[⟨some 0, true⟩], [0]⟩, ⟨[⟨none, false⟩], []⟩], 0, 1, 0⟩ : Cache).misses ≤
      (⟨[⟨[⟨some 0, true⟩], [0]⟩, ⟨[⟨none, false⟩], []⟩], 2, 1, 0⟩ : Cache).misses ∧
    (⟨[⟨[⟨some 0, true⟩], [0]⟩, ⟨[⟨none, false⟩], []⟩], 0, 1, 0⟩ : Cache).evictions ≤
      (⟨[⟨[⟨some 0, true⟩], [0]⟩, ⟨[⟨none, false⟩], []⟩], 2, 1, 0⟩ : Cache).evictions :=
  stats_weighted_monotone 1 1 1 (freshCache 1 1) [('L', 0, 0)] [('M', 0, 0)]
    ⟨[⟨[⟨some 0, true⟩], [0]⟩, ⟨[⟨none, false⟩], []⟩], 0, 1, 0⟩
    ⟨[⟨[⟨some 0, true⟩], [0]⟩, ⟨[⟨none, false⟩], []⟩], 2, 1, 0⟩ rfl rfl rfl

/-- Witness for C5 at address 0x10 with S=4, b=4 (tag 0, set index 1). -/
theorem address_roundtrip_witness :
    (16 : Nat) < 2 ^ 64 ∧ 4 + 4 ≤ 64 ∧
    decodeAddress 16 4 4 = some (.ok (0, 1)) ∧
    ((0 : Nat) <<< (4 + 4)) ||| ((1 : Nat) <<< 4) = 16 / 2 ^ 4 * 2 ^ 4 :=
  ⟨by decide, by decide, rfl,
    address_roundtrip 16 4 4 0 1 (by decide) (by decide) rfl⟩

/-- Witness for C6 at the freshly constructed 2-set, 1-line cache. -/
theorem access_order_exactly_valid_witness :
    (∀ st ∈ (freshCache 1 1).sets, st.access_order.Nodup ∧
      ∀ i, (i ∈ st.access_order ↔ (st.lines.getD i default).is_valid = true)) ∧
    (∀ op set_index tag c',
      simulate_memory_access (freshCache 1 1) op set_index tag = some (.ok c') →
      ∀ st ∈ c'.sets, st.access_order.Nodup ∧
        ∀ i, (i ∈ st.access_order ↔ (st.lines.getD i default).is_valid = true)) :=
  access_order_exactly_valid (freshCache 1 1)
    (Reachable.init 1 1 1 (freshCache 1 1) rfl)

/-- Witness for C7 at a cold Load (a miss that fills line 0 of set 0). -/
theorem access_frame_effect_witness :
    ((⟨[⟨[⟨some 0, true⟩], [0]⟩, ⟨[⟨none, false⟩], []⟩], 0, 1, 0⟩ : Cache).hits =
        (freshCache 1 1).hits + 1 ∧
      ∀ sj k, (getSet (⟨[⟨[⟨some 0, true⟩], [0]⟩, ⟨[⟨none, false⟩], []⟩], 0, 1, 0⟩ : Cache)
          sj).lines.getD k default =
        (getSet (freshCache 1 1) sj).lines.getD k default) ∨
    ((⟨[⟨[⟨some 0, true⟩], [0]⟩, ⟨[⟨none, false⟩], []⟩], 0, 1, 0⟩ : Cache).misses =
        (freshCache 1 1).misses + 1 ∧
      ∃ i, (getSet (⟨[⟨[⟨some 0, true⟩], [0]⟩, ⟨[⟨none, false⟩], []⟩], 0, 1, 0⟩ : Cache)
            0).lines.getD i default ≠
          (getSet (freshCache 1 1) 0).lines.getD i default ∧
        ∀ sj k, ¬(sj = 0 ∧ k = i) →
          (getSet (⟨[⟨[⟨some 0, true⟩], [0]⟩, ⟨[⟨none, false⟩], []⟩], 0, 1, 0⟩ : Cache)
              sj).lines.getD k default =
            (getSet (freshCache 1 1) sj).lines.getD k default) :=
  access_frame_effect (freshCache 1 1) 'L' 0 0
    ⟨[⟨[⟨some 0, true⟩], [0]⟩, ⟨[⟨none, false⟩], []⟩], 0, 1, 0⟩ (Or.inl rfl) rfl

/-- Witness for the amended C8: a cold Load on set 0 misses, and the
immediately following Store to the same (set_index, tag) hits. -/
theorem miss_then_hit_amended_witness :
    ∃ c1 c2, simulate_memory_access (freshCache 1 1) 'L' 0 0 = some (.ok c1) ∧
      c1.misses = (freshCache 1 1).misses + 1 ∧ c1.hits = (freshCache 1 1).hits ∧
      simulate_memory_access c1 'S' 0 0 = some (.ok c2) ∧
      c2.hits = c1.hits + 1 ∧ c2.misses = c1.misses :=
  miss_then_hit_amended (freshCache 1 1) 0 0 'L' 'S'
    (@WF_new 1 1 1 (freshCache 1 1) rfl) (by decide) (by decide)
    (fun j h => by
      rcases h with ⟨hv, _⟩
      cases j with
      | zero => exact absurd hv (by decide)
      | succ n =>
        rw [(rfl : ((getSet (freshCache 1 1) 0).lines.getD (n + 1) default) = default)] at hv
        cases hv)
    (Or.inl rfl) (Or.inr rfl)

/-- Witness for the amended C9: a cold Load increments `misses` inside the
access operation. -/
theorem stats_updated_inside_access_witness :
    ((⟨[⟨[⟨some 0, true⟩], [0]⟩, ⟨[⟨none, false⟩], []⟩], 0, 1, 0⟩ : Cache).hits =
        (freshCache 1 1).hits + 1 ∧
      (⟨[⟨[⟨some 0, true⟩], [0]⟩, ⟨[⟨none, false⟩], []⟩], 0, 1, 0⟩ : Cache).misses =
        (freshCache 1 1).misses ∧
      (⟨[⟨[⟨some 0, true⟩], [0]⟩, ⟨[⟨none, false⟩], []⟩], 0, 1, 0⟩ : Cache).evictions =
        (freshCache 1 1).evictions) ∨
    ((⟨[⟨[⟨some 0, true⟩], [0]⟩, ⟨[⟨none, false⟩], []⟩], 0, 1, 0⟩ : Cache).hits =
        (freshCache 1 1).hits ∧
      (⟨[⟨[⟨some 0, true⟩], [0]⟩, ⟨[⟨none, false⟩], []⟩], 0, 1, 0⟩ : Cache).misses =
        (freshCache 1 1).misses + 1 ∧
      ((⟨[⟨[⟨some 0, true⟩], [0]⟩, ⟨[⟨none, false⟩], []⟩], 0, 1, 0⟩ : Cache).evictions =
          (freshCache 1 1).evictions ∨
        (⟨[⟨[⟨some 0, true⟩], [0]⟩, ⟨[⟨none, false⟩], []⟩], 0, 1, 0⟩ : Cache).evictions =
          (freshCache 1 1).evictions + 1)) :=
  stats_updated_inside_access (freshCache 1 1) 'L' 0 0
    ⟨[⟨[⟨some 0, true⟩], [0]⟩, ⟨[⟨none, false⟩], []⟩], 0, 1, 0⟩ (Or.inl rfl) rfl

/-- Witness for C10 at the freshly constructed 2-set, 1-line cache
(reachable via `Cache.new 1 1 1`). -/
theorem valid_lines_form_prefix_witness :
    Cache.new 1 1 1 = some (.ok (freshCache 1 1)) ∧
    ∀ st ∈ (freshCache 1 1).sets,
      (∀ i j, i ≤ j → (st.lines.getD j default).is_valid = true →
        (st.lines.getD i default).is_valid = true) ∧
      (∀ tag i, scanLines tag st.lines = .fill i →
        ∀ j, i < j → (st.lines.getD j default).is_valid = false) :=
  ⟨rfl, valid_lines_form_prefix (freshCache 1 1)
    (Reachable.init 1 1 1 (freshCache 1 1) rfl)⟩

end Sim
